import Mathlib

/-!
# digi-safe: the JPEG segment codec and the serial device link of `safe.go`

A shallow embedding of `src/safe/safe.go`.

* Go `byte` is `Fin 256`; Go `[]byte` and Go `string` (a byte sequence) are `List Byte`.
* Go `int` values that occur here (offsets, sizes, counts, `rand.Int()`) are non-negative
  and below 2^63, so they are `Nat`.
* A Go run-time panic (index out of range, slice bounds out of range) is the outcome
  `Outcome.crash`.
* Loops whose number of iterations depends on the data run on an iteration budget computed
  from the data; `Outcome.outOfFuel` marks an exhausted budget. It is never returned:
  `parse_jpeg_fuel`, `Drain_eq`, `Send_eq`, `Read_ok`, `Sync_ok`, `http_once_sent`.
* `debug(...)` calls and `time.Sleep` are left out: they touch neither the data nor the link.
-/

namespace Safe

/-! ## Bytes, strings, outcomes -/

/-- Go `byte`. -/
abbrev Byte := Fin 256

/-- Go `byte(n)` for a non-negative `int`: the low eight bits. -/
def byte (n : Nat) : Byte := ⟨n % 256, Nat.mod_lt _ (by decide)⟩

/-- The bytes of an ASCII string literal of the source. -/
def str (s : String) : List Byte := s.toList.map (fun c => byte c.toNat)

/-- The errors `parse_jpeg` and `read_jpeg_segment` build with `errors.New`. -/
inductive ParseError where
  /-- "Image is not a JPEG - bad header" -/
  | badHeader
  /-- "Image is not a JPEG - bad footer" -/
  | badFooter
  /-- "Bad JPEG - expected 0xff at " + offset -/
  | expectedFF (offset : Nat)
  /-- "Too many DQT segments" -/
  | tooManyDQT
  /-- "Too many DHT segments" -/
  | tooManyDHT
  deriving DecidableEq, Repr

/-- How a call ends: a value (with a nil error), a non-nil error, a Go run-time panic,
or an exhausted iteration budget of the model. -/
inductive Outcome (α : Type) where
  | ok (a : α)
  | error (e : ParseError)
  | crash
  | outOfFuel
  deriving DecidableEq, Repr

/-- Sequencing: everything but a value ends the computation. -/
def Outcome.bind {α β : Type} (x : Outcome α) (f : α → Outcome β) : Outcome β :=
  match x with
  | .ok a => f a
  | .error e => .error e
  | .crash => .crash
  | .outOfFuel => .outOfFuel

instance : Monad Outcome where
  pure := Outcome.ok
  bind := Outcome.bind

/-- Go `strings.HasPrefix(s, p)`. -/
def HasPrefix (s p : List Byte) : Bool := p.isPrefixOf s

/-- Go `strings.HasSuffix(s, p)`. -/
def HasSuffix (s p : List Byte) : Bool := p.isSuffixOf s

/-- The decimal digits of `n`, least significant first; `fuel` bounds their number. -/
def itoaRev : Nat → Nat → List Byte
  | 0, _ => []
  | fuel + 1, n =>
    byte (48 + n % 10) :: (if n / 10 = 0 then [] else itoaRev fuel (n / 10))

/-- Go `strconv.Itoa(n)` for a non-negative `n`. -/
def Itoa (n : Nat) : List Byte := (itoaRev (n + 1) n).reverse

/-! ## JPEG file handling -/

/-- The `JPEG` struct. The pair `dqt [10][]byte`, `dqtcount int` is kept as the list of the
first `dqtcount` slots (the only slots `write_jpeg` reads), and likewise `dht`, `dhtcount`;
`dqtcount` is `dqt.length`. A nil slice and an empty slice are both `[]`. -/
structure JPEG where
  dqt : List (List Byte)
  comment : List Byte
  sof0 : List Byte
  dht : List (List Byte)
  sos : List Byte
  img : List Byte
  deriving DecidableEq, Repr

/-- The zero value `var image JPEG`. -/
def JPEG.zero : JPEG := ⟨[], [], [], [], [], []⟩

/-- Go `img[i]` on a slice: a panic when `i` is not below `len(img)`. -/
def index (img : List Byte) (i : Nat) : Outcome Byte :=
  match img[i]? with
  | some b => .ok b
  | none => .crash

/-- Go `img[low:high]` on a slice whose backing array continues with `spare` after
`len(img)`: the upper bound of a slice expression on a slice is the capacity, so the
expression panics exactly when `high < low` or `high > cap(img)`. -/
def slice (img spare : List Byte) (low high : Nat) : Outcome (List Byte) :=
  if low ≤ high ∧ high ≤ img.length + spare.length then
    .ok (((img ++ spare).drop low).take (high - low))
  else .crash

/-- `read_jpeg_segment(img, offset)`: returns `(segment, size, res)`. -/
def read_jpeg_segment (img spare : List Byte) (offset : Nat) :
    Outcome (Nat × Nat × List Byte) := do
  let b0 ← index img offset
  if b0 ≠ 0xff then
    .error (.expectedFF offset)
  else
    let b1 ← index img (offset + 1)
    let segment := b1.val
    let b2 ← index img (offset + 2)
    let b3 ← index img (offset + 3)
    let size := b2.val * 256 + b3.val
    let res ← slice img spare (offset + 4) (offset + 4 + size - 2)
    pure (segment, size, res)

/-- `write_jpeg_segment(f, marker, data)`: the bytes written to `f`. -/
def write_jpeg_segment (marker : Nat) (data : List Byte) : List Byte :=
  let l := data.length + 2
  [0xff, byte marker, byte (l / 256), byte (l % 256)] ++ data

/-- The `for { ... }` loop of `parse_jpeg`, at most `fuel` iterations. The result is the
image and the offset at the `break`. -/
def parse_loop (img spare : List Byte) : Nat → Nat → JPEG → Outcome (JPEG × Nat)
  | 0, _, _ => .outOfFuel
  | fuel + 1, offset, image => do
    let (sect, size, data) ← read_jpeg_segment img spare offset
    let offset := offset + (size + 2)
    if sect = 0xfe then
      parse_loop img spare fuel offset { image with comment := data }
    else if sect = 0xc0 then
      parse_loop img spare fuel offset { image with sof0 := data }
    else if sect = 0xda then
      pure ({ image with sos := data }, offset)
    else if sect = 0xdb then
      let image := { image with dqt := image.dqt ++ [data] }
      if image.dqt.length > 9 then .error .tooManyDQT
      else parse_loop img spare fuel offset image
    else if sect = 0xc4 then
      let image := { image with dht := image.dht ++ [data] }
      if image.dht.length > 9 then .error .tooManyDHT
      else parse_loop img spare fuel offset image
    else parse_loop img spare fuel offset image

/-- The header test `img[0] != 0xff && img[1] != 0xd8`, with the short circuit of `&&`:
`img[1]` is read only when `img[0]` differs from `0xff`. -/
def badHeader (img : List Byte) : Outcome Bool := do
  let b0 ← index img 0
  if b0 ≠ 0xff then
    let b1 ← index img 1
    pure (decide (b1 ≠ 0xd8))
  else pure false

/-- The footer test `img[len(img)-2] != 0xff && img[len(img)-1] != 0xd9`. The index
`len(img)-2` is negative, hence out of range, when `len(img) < 2`. -/
def badFooter (img : List Byte) : Outcome Bool := do
  if img.length < 2 then .crash
  else
    let b0 ← index img (img.length - 2)
    if b0 ≠ 0xff then
      let b1 ← index img (img.length - 1)
      pure (decide (b1 ≠ 0xd9))
    else pure false

/-- `parse_jpeg(img)`, where `spare` is what the backing array of `img` holds between
`len(img)` and `cap(img)`. The image returned next to a non-nil error is dropped: every
caller discards it. The loop runs on a budget of `len(img) + 1` iterations. -/
def parse_jpeg (img spare : List Byte) : Outcome JPEG := do
  if (← badHeader img) then
    .error .badHeader
  else if (← badFooter img) then
    .error .badFooter
  else
    let (image, offset) ← parse_loop img spare (img.length + 1) 2 JPEG.zero
    let rest ← slice img spare offset (img.length - 2)
    pure { image with img := rest }

/-- `write_jpeg(f, image)`: the bytes written to `f`, in the order of the source. -/
def write_jpeg (image : JPEG) : List Byte :=
  [0xff, 0xd8]
    ++ write_jpeg_segment 0xfe image.comment
    ++ (image.dqt.map (write_jpeg_segment 0xdb)).flatten
    ++ write_jpeg_segment 0xc0 image.sof0
    ++ (image.dht.map (write_jpeg_segment 0xc4)).flatten
    ++ write_jpeg_segment 0xda image.sos
    ++ image.img
    ++ [0xff, 0xd9]

/-- The text of `err.Error()`. -/
def ParseError.Error : ParseError → List Byte
  | .badHeader => str "Image is not a JPEG - bad header"
  | .badFooter => str "Image is not a JPEG - bad footer"
  | .expectedFF offset => str "Bad JPEG - expected 0xff at " ++ Itoa offset
  | .tooManyDQT => str "Too many DQT segments"
  | .tooManyDHT => str "Too many DHT segments"

/-! ## Serial communication to the safe

The globals `port` and `reader` are the state `Link`. The device is a responder: it
delivers bytes only in answer to a write, all of them before the next read, and is silent
otherwise. `port.Read(buf)` hands over the pending bytes, at most `len(buf)` of them, and
yields nothing (zero bytes or a timeout error) when none is pending. -/

/-- The serial port and the `bufio.Reader` on top of it. -/
structure Link where
  /-- bytes the device has delivered and no `port.Read` has returned yet -/
  port : List Byte
  /-- bytes held in the buffer of `reader` -/
  rbuf : List Byte
  /-- the messages written with `port.Write`, oldest first -/
  sent : List (List Byte)
  deriving DecidableEq, Repr

/-- What the device answers to the newest message, given all messages written so far. -/
abbrev Device := List (List Byte) → List Byte

/-- The line feed `'\x0a'`. -/
def LF : Byte := 0x0a

/-- The carriage return `'\r'`. -/
def CR : Byte := 0x0d

/-- Size of the buffer of `bufio.NewReader`. -/
def readerSize : Nat := 4096

/-- `port.Read(buf)` with `len(buf) = n`: the bytes read and the link afterwards. -/
def portRead (l : Link) (n : Nat) : List Byte × Link :=
  (l.port.take n, { l with port := l.port.drop n })

/-- `port.Write(msg)`: the message is on the wire and the answer of the device is pending. -/
def portWrite (dev : Device) (l : Link) (msg : List Byte) : Link :=
  { l with sent := l.sent ++ [msg], port := l.port ++ dev (l.sent ++ [msg]) }

/-- The `for` loop of `Drain`: read into a 128-byte buffer until a read yields nothing.
Next to the link it returns the byte count `n` of every `port.Read` it made, in order;
the source keeps no such list, it serves to state where the loop stops. -/
def drainLoop : Nat → Link → Outcome (List Nat × Link)
  | 0, _ => .outOfFuel
  | fuel + 1, l =>
    let (data, l) := portRead l 128
    if data.length = 0 then pure ([data.length], l)
    else do
      let (counts, l) ← drainLoop fuel l
      pure (data.length :: counts, l)

/-- `Drain()`. -/
def Drain (l : Link) : Outcome (List Nat × Link) := drainLoop (l.port.length + 1) l

/-- `Send(str)`. -/
def Send (dev : Device) (l : Link) (msg : List Byte) : Outcome Link := do
  let (_, l) ← Drain l
  pure (portWrite dev l msg)

/-- `reader.ReadString('\x0a')`: the bytes up to and including the first line feed, taken
from the buffer and refilled from the port; when the port yields nothing before a line
feed is seen, everything read so far comes back with a non-nil error (`true`). `acc` holds
the full buffers already set aside. -/
def readString : Nat → List Byte → Link → Outcome (List Byte × Bool × Link)
  | 0, _, _ => .outOfFuel
  | fuel + 1, acc, l =>
    if LF ∈ l.rbuf then
      let i := l.rbuf.indexOf LF
      pure (acc ++ l.rbuf.take (i + 1), false, { l with rbuf := l.rbuf.drop (i + 1) })
    else if readerSize ≤ l.rbuf.length then
      readString fuel (acc ++ l.rbuf) { l with rbuf := [] }
    else
      let (data, l1) := portRead l (readerSize - l.rbuf.length)
      if data.length = 0 then
        pure (acc ++ l.rbuf, true, { l1 with rbuf := [] })
      else
        readString fuel acc { l1 with rbuf := l.rbuf ++ data }

/-- Go `strings.TrimRight(s, "\r\n")`. -/
def trimRight (s : List Byte) : List Byte := s.rdropWhile (fun b => b = CR || b = LF)

/-- `Read()`: the line without its trailing CR/LF, and whether `err != nil`. -/
def Read (l : Link) : Outcome (List Byte × Bool × Link) := do
  let (reply, err, l) ← readString (2 * l.port.length + 3) [] l
  pure (trimRight reply, err, l)

/-- `SendRead(str)`. -/
def SendRead (dev : Device) (l : Link) (msg : List Byte) : Outcome (List Byte × Link) := do
  let l ← Send dev l msg
  let (res, _, l) ← Read l
  pure (res, l)

/-- The inner loop `for !connected { ... }` of `Sync`, entered with `connected == false`;
`ack` is `"PINGACK:"+str+":"`. Returns `connected`. -/
def syncRead (ack : List Byte) : Nat → Link → Outcome (Bool × Link)
  | 0, _ => .outOfFuel
  | fuel + 1, l => do
    let (x, err, l) ← Read l
    let connected := HasSuffix x ack
    if err then pure (connected, l)
    else if connected then pure (true, l)
    else syncRead ack fuel l

/-- The outer loop `for n := 1; n <= 5 && !connected; n++` of `Sync` with `k` iterations
left, entered with `connected == false`; `rnd n` is what `rand.Int()` returns in
iteration `n`. -/
def syncLoop (dev : Device) (rnd : Nat → Nat) : Nat → Nat → Link → Outcome (Bool × Link)
  | 0, _, l => pure (false, l)
  | k + 1, n, l => do
    let s := Itoa (rnd n)
    let l ← Send dev l (str ":ping:" ++ s ++ str ":")
    let (connected, l) ← syncRead (str "PINGACK:" ++ s ++ str ":")
      (l.rbuf.length + l.port.length + 1) l
    if connected then pure (true, l) else syncLoop dev rnd k (n + 1) l

/-- `Sync()`. -/
def Sync (dev : Device) (rnd : Nat → Nat) (l : Link) : Outcome (List Byte × Bool × Link) := do
  let (connected, l) ← syncLoop dev rnd 5 1 l
  if !connected then pure (str "Failed to connect to safe", false, l)
  else pure (str "Connected to safe", true, l)

/-! ## Web server functionality

The `http.ResponseWriter` is the list of the lines printed to it with `fmt.Fprintln`. -/

/-- The lines written to the response. -/
abbrev Response := List (List Byte)

/-- The constant `pswdstring`. -/
def pswdstring : List Byte :=
  str "ABCDEFGHIJKLMNOPQRSTUVWXYZabcdefghijklmnopqrstuvwxyz0123456789"

/-- The regular expression `"^[" + pswdstring + "]+$"` applied with `MatchString`: from the
start of the text, one or more bytes of the class, then the end of the text. -/
def validPsw : List Byte → Bool
  | [] => false
  | [c] => decide (c ∈ pswdstring)
  | c :: rest => decide (c ∈ pswdstring) && validPsw rest

/-- `http_once(w, request)`. -/
def http_once (dev : Device) (w : Response) (l : Link) (request : List Byte) :
    Outcome (List Byte × Response × Link) := do
  let (res, l) ← SendRead dev l request
  pure (res, w ++ [res ++ str "<br>"], l)

/-- `check_psw(w, psw1)`. -/
def check_psw (w : Response) (psw1 : List Byte) : Bool × Response :=
  if psw1 = [] then
    (false, w ++ [str "ERROR Missing password"])
  else if !validPsw psw1 then
    (false, w ++ [str "ERROR Password contains invalid characters.<br>Letters and numbers only"])
  else (true, w)

/-- `http_unlock_file(w, cmd, file)`; `file` is the content of the upload (`none` for a nil
reader) and `spare` the unused capacity behind `buf.Bytes()`. -/
def http_unlock_file (dev : Device) (spare : List Byte) (w : Response) (l : Link)
    (cmd : List Byte) (file : Option (List Byte)) : Outcome (Response × Link) :=
  match file with
  | none => pure (w ++ [str "No file selected"], l)
  | some buf =>
    match parse_jpeg buf spare with
    | .error err => pure (w ++ [str "Could not parse JPEG file: " ++ err.Error], l)
    | .crash => .crash
    | .outOfFuel => .outOfFuel
    | .ok img =>
      let psw := img.comment
      if HasPrefix psw (str "LOCKPSW:") then
        let psw := psw.drop 8
        let (ok, w) := check_psw w psw
        if ok then do
          let (_, w, l) ← http_once dev w l (str ":" ++ cmd ++ str ":" ++ psw ++ str ":")
          pure (w, l)
        else pure (w, l)
      else pure (w ++ [str "This is not a valid password image"], l)

/-- `http_unlock(w, cmd, psw1)`. -/
def http_unlock (dev : Device) (w : Response) (l : Link) (cmd psw1 : List Byte) :
    Outcome (Response × Link) :=
  let (ok, w) := check_psw w psw1
  if ok then do
    let (_, w, l) ← http_once dev w l (str ":" ++ cmd ++ str ":" ++ psw1 ++ str ":")
    pure (w, l)
  else pure (w, l)

/-! ## Predicates used to state the properties -/

/-- The value of a digit string, least significant digit first. -/
def valueRev : List Byte → Nat
  | [] => 0
  | b :: rest => (b.val - 48) + 10 * valueRev rest

/-- The data-model invariant of an image record with at most `cap` tables of each kind:
every segment payload has at most 65533 bytes, so that its length field fits 16 bits. -/
abbrev JPEG.wellFormed (cap : Nat) (r : JPEG) : Prop :=
  r.dqt.length ≤ cap ∧ r.dht.length ≤ cap
    ∧ r.comment.length ≤ 65533 ∧ r.sof0.length ≤ 65533 ∧ r.sos.length ≤ 65533
    ∧ (∀ t ∈ r.dqt, t.length ≤ 65533) ∧ (∀ t ∈ r.dht, t.length ≤ 65533)

/-- The lines of the bytes `s` read after the bytes `cur` of a line already begun: every
piece that ends in a line feed, then the rest without one (empty or not), each without its
trailing CR/LF. -/
def linesFrom : List Byte → List Byte → List (List Byte)
  | cur, [] => [trimRight cur]
  | cur, b :: rest =>
    if b = LF then trimRight (cur ++ [LF]) :: linesFrom [] rest
    else linesFrom (cur ++ [b]) rest

/-- The lines of a byte sequence. -/
def readLines (s : List Byte) : List (List Byte) := linesFrom [] s

/-- The message `":ping:" + nonce + ":"`. -/
def pingMsg (nonce : Nat) : List Byte := str ":ping:" ++ Itoa nonce ++ str ":"

/-- The acknowledgment `"PINGACK:" + nonce + ":"`. -/
def ackSuffix (nonce : Nat) : List Byte := str "PINGACK:" ++ Itoa nonce ++ str ":"

/-- The pings of `k` attempts in a row, the first being attempt `n`. -/
def pingsFrom (rnd : Nat → Nat) (n k : Nat) : List (List Byte) :=
  (List.range k).map (fun i => pingMsg (rnd (n + i)))

/-- The pings of attempts `1` to `k`. -/
def pings (rnd : Nat → Nat) (k : Nat) : List (List Byte) := pingsFrom rnd 1 k

/-- Whether the answer of the device to the ping of attempt `n + j`, after `sent0` and the
pings of attempts `n` to `n + j` were written, holds a line that ends in the acknowledgment
of that ping. -/
def ackedFrom (dev : Device) (rnd : Nat → Nat) (sent0 : List (List Byte)) (n j : Nat) : Bool :=
  (readLines (dev (sent0 ++ pingsFrom rnd n (j + 1)))).any
    (fun x => HasSuffix x (ackSuffix (rnd (n + j))))

/-- Whether the device answers the ping of attempt `k` (counted from 1) with a line that
ends in the acknowledgment of that ping. -/
def acked (dev : Device) (rnd : Nat → Nat) (sent0 : List (List Byte)) (k : Nat) : Bool :=
  (readLines (dev (sent0 ++ pings rnd k))).any (fun x => HasSuffix x (ackSuffix (rnd k)))

/-- A framed stream: the two bytes `head`, then the complete segments `segs` (each the
byte `FF`, its type, the 16-bit length of the payload plus 2, and the payload), then a
complete scan-header segment (type `DA`) with the payload `sos`, then the scan data
`data`, then the two bytes `foot`. -/
def framedStream (head : List Byte) (segs : List (Byte × List Byte))
    (sos data foot : List Byte) : List Byte :=
  head ++ (segs.map (fun s => write_jpeg_segment s.1.val s.2)).flatten
    ++ write_jpeg_segment 0xda sos ++ data ++ foot

/-! ## Concrete inputs -/

/-- A record with ten one-byte quantization tables and nothing else. -/
def tenTables : JPEG := ⟨List.replicate 10 [0x01], [], [], [], [], []⟩

/-- A stream of the start marker, `n` segments of type `marker` with the one-byte
payload `0x01`, an empty scan header and the end marker. -/
def tableStream (marker n : Nat) : List Byte :=
  [0xff, 0xd8] ++ (List.replicate n (write_jpeg_segment marker [0x01])).flatten
    ++ write_jpeg_segment 0xda [] ++ [0xff, 0xd9]

/-- The smallest stream that `parse_jpeg` decodes: markers around an empty scan header. -/
def minimalStream : List Byte := [0xff, 0xd8, 0xff, 0xda, 0x00, 0x02, 0xff, 0xd9]

/-- An ASCII letter or digit: `A`-`Z`, `a`-`z`, `0`-`9`. -/
def isAlnum (c : Byte) : Prop :=
  (65 ≤ c.val ∧ c.val ≤ 90) ∨ (97 ≤ c.val ∧ c.val ≤ 122) ∨ (48 ≤ c.val ∧ c.val ≤ 57)

instance : DecidablePred isAlnum := fun c => by
  unfold isAlnum
  exact inferInstance

/-- A device that never answers. -/
def silent : Device := fun _ => []

/-- A device that answers the first message with noise and every later message with the
acknowledgment of the nonce 7. -/
def lateDevice : Device := fun sent =>
  if sent.length < 2 then str "noise\r\n" else str "xx PINGACK:7:\r\n"

/-- Nonces 6, 7, 8, ... for the attempts 1, 2, 3, ... -/
def countingRnd : Nat → Nat := fun n => n + 5

/-- A link right after the port was opened: garbage pending, nothing buffered, nothing
written. -/
def openedLink : Link := ⟨str "garbage", [], []⟩

/-- A link on which the device has delivered two lines in one burst. -/
def burstLink : Link := ⟨str "OK\nERROR stale\n", [], []⟩

/-- An upload that `write_jpeg` produced for the password `abc`. -/
def passwordImage : List Byte := write_jpeg { JPEG.zero with comment := str "LOCKPSW:abc" }

end Safe

namespace Safe

/-! ## Outcomes -/

@[simp] theorem Outcome.ok_bind {α β : Type} (a : α) (f : α → Outcome β) :
    (Outcome.ok a >>= f) = f a := rfl

@[simp] theorem Outcome.error_bind {α β : Type} (e : ParseError) (f : α → Outcome β) :
    ((Outcome.error e : Outcome α) >>= f) = Outcome.error e := rfl

@[simp] theorem Outcome.crash_bind {α β : Type} (f : α → Outcome β) :
    ((Outcome.crash : Outcome α) >>= f) = Outcome.crash := rfl

@[simp] theorem Outcome.outOfFuel_bind {α β : Type} (f : α → Outcome β) :
    ((Outcome.outOfFuel : Outcome α) >>= f) = Outcome.outOfFuel := rfl

@[simp] theorem Outcome.pure_eq {α : Type} (a : α) : (pure a : Outcome α) = Outcome.ok a := rfl

/-- A sequence ends in a value exactly when both of its parts do. -/
theorem Outcome.bind_eq_ok {α β : Type} {x : Outcome α} {f : α → Outcome β} {b : β} :
    (x >>= f) = Outcome.ok b ↔ ∃ a, x = Outcome.ok a ∧ f a = Outcome.ok b := by
  cases x <;> simp

/-- A sequence of parts within budget is within budget. -/
theorem Outcome.bind_ne_outOfFuel {α β : Type} {x : Outcome α} {f : α → Outcome β}
    (hx : x ≠ Outcome.outOfFuel) (hf : ∀ a, x = Outcome.ok a → f a ≠ Outcome.outOfFuel) :
    (x >>= f) ≠ Outcome.outOfFuel := by
  cases x <;> simp_all

/-! ## The codec: reading back what `write_jpeg_segment` wrote -/

theorem byte_val (n : Nat) : (byte n).val = n % 256 := rfl

theorem index_append (pre post : List Byte) (b : Byte) :
    index (pre ++ b :: post) pre.length = Outcome.ok b := by
  unfold index
  rw [List.getElem?_append_right (le_refl _)]
  simp

theorem index_eq_ok {img : List Byte} {i : Nat} {b : Byte} (h : index img i = Outcome.ok b) :
    i < img.length := by
  unfold index at h
  cases hi : img[i]? with
  | none => rw [hi] at h; cases h
  | some c => exact (List.getElem?_eq_some.mp hi).1

theorem index_ne_outOfFuel (img : List Byte) (i : Nat) : index img i ≠ Outcome.outOfFuel := by
  unfold index
  cases img[i]? <;> simp

theorem slice_ne_outOfFuel (img spare : List Byte) (a b : Nat) :
    slice img spare a b ≠ Outcome.outOfFuel := by
  unfold slice
  split <;> simp

theorem slice_eq_ok {img spare res : List Byte} {a b : Nat}
    (h : slice img spare a b = Outcome.ok res) : a ≤ b ∧ res.length = b - a := by
  unfold slice at h
  split at h
  · rename_i hc
    cases h
    refine ⟨hc.1, ?_⟩
    simp [List.length_take, List.length_drop]
    omega
  · cases h

/-- A slice expression that cuts a middle part out of the visible bytes. -/
theorem slice_mid (A B C spare : List Byte) :
    slice (A ++ (B ++ C)) spare A.length (A.length + B.length) = Outcome.ok B := by
  unfold slice
  rw [if_pos (by simp; omega)]
  have e : A.length + B.length - A.length = B.length := by omega
  rw [e, List.append_assoc, List.drop_left, List.append_assoc, List.take_left]

/-- The segment that `write_jpeg_segment` wrote at offset `len(pre)` is read back whole. -/
theorem read_written (pre post spare d : List Byte) (m : Nat) (hm : m < 256)
    (hd : d.length ≤ 65533) :
    read_jpeg_segment (pre ++ write_jpeg_segment m d ++ post) spare pre.length
      = Outcome.ok (m, d.length + 2, d) := by
  have e0 : pre ++ write_jpeg_segment m d ++ post
      = pre ++ (0xff : Byte) :: (byte m :: byte ((d.length + 2) / 256)
          :: byte ((d.length + 2) % 256) :: (d ++ post)) := by
    simp [write_jpeg_segment]
  have i0 := index_append pre (byte m :: byte ((d.length + 2) / 256)
          :: byte ((d.length + 2) % 256) :: (d ++ post)) (0xff : Byte)
  have i1 := index_append (pre ++ [(0xff : Byte)]) (byte ((d.length + 2) / 256)
          :: byte ((d.length + 2) % 256) :: (d ++ post)) (byte m)
  have i2 := index_append (pre ++ [(0xff : Byte), byte m])
          (byte ((d.length + 2) % 256) :: (d ++ post)) (byte ((d.length + 2) / 256))
  have i3 := index_append (pre ++ [(0xff : Byte), byte m, byte ((d.length + 2) / 256)])
          (d ++ post) (byte ((d.length + 2) % 256))
  simp only [List.append_assoc, List.cons_append, List.nil_append, List.length_append,
    List.length_cons, List.length_nil] at i1 i2 i3
  have hsize : (byte ((d.length + 2) / 256)).val * 256 + (byte ((d.length + 2) % 256)).val
      = d.length + 2 := by
    simp only [byte_val]
    omega
  have hseg : (byte m).val = m := by
    simp only [byte_val]
    omega
  unfold read_jpeg_segment
  rw [e0, i0]
  simp only [Outcome.ok_bind, ne_eq, not_true_eq_false, if_false]
  rw [i1, Outcome.ok_bind, i2, Outcome.ok_bind, i3, Outcome.ok_bind, hsize, hseg]
  have hs : slice (pre ++ (0xff : Byte) :: (byte m :: byte ((d.length + 2) / 256)
          :: byte ((d.length + 2) % 256) :: (d ++ post))) spare (pre.length + 4)
          (pre.length + 4 + (d.length + 2) - 2) = Outcome.ok d := by
    unfold slice
    have hd2 : pre.length + 4 + (d.length + 2) - 2 - (pre.length + 4) = d.length := by omega
    rw [if_pos (by simp; omega), hd2]
    have e1 : (pre ++ (0xff : Byte) :: (byte m :: byte ((d.length + 2) / 256)
          :: byte ((d.length + 2) % 256) :: (d ++ post))) ++ spare
        = (pre ++ [(0xff : Byte), byte m, byte ((d.length + 2) / 256),
            byte ((d.length + 2) % 256)]) ++ (d ++ (post ++ spare)) := by simp
    rw [e1, List.drop_left' (by simp), List.take_left]
  rw [hs]
  rfl

/-! ## The codec: the loop of `parse_jpeg` -/

/-- More budget does not change a result reached within budget. -/
theorem parse_loop_mono (img spare : List Byte) (k : Nat) :
    ∀ (fuel offset : Nat) (image : JPEG),
      parse_loop img spare fuel offset image ≠ Outcome.outOfFuel →
      parse_loop img spare (fuel + k) offset image = parse_loop img spare fuel offset image := by
  intro fuel
  induction fuel with
  | zero => intro offset image h; simp [parse_loop] at h
  | succ f ih =>
    intro offset image h
    rw [Nat.add_right_comm]
    simp only [parse_loop] at h ⊢
    cases hr : read_jpeg_segment img spare offset with
    | ok v =>
      obtain ⟨sect, size, data⟩ := v
      rw [hr] at h
      simp only [Outcome.ok_bind] at h ⊢
      split_ifs at h ⊢ <;> first | rfl | exact ih _ _ h
    | error e => rfl
    | crash => rfl
    | outOfFuel => rfl

theorem write_jpeg_segment_length (m : Nat) (d : List Byte) :
    (write_jpeg_segment m d).length = d.length + 4 := by
  simp [write_jpeg_segment]

/-- One turn of the loop over a written segment. -/
theorem parse_loop_written (spare img pre post d : List Byte) (m off : Nat)
    (himg : img = pre ++ write_jpeg_segment m d ++ post) (hoff : off = pre.length)
    (hm : m < 256) (hd : d.length ≤ 65533) (fuel : Nat) (image : JPEG) :
    parse_loop img spare (fuel + 1) off image =
      (if m = 0xfe then
        parse_loop img spare fuel (off + (d.length + 2 + 2)) { image with comment := d }
      else if m = 0xc0 then
        parse_loop img spare fuel (off + (d.length + 2 + 2)) { image with sof0 := d }
      else if m = 0xda then
        Outcome.ok ({ image with sos := d }, off + (d.length + 2 + 2))
      else if m = 0xdb then
        (if (image.dqt ++ [d]).length > 9 then Outcome.error ParseError.tooManyDQT
        else parse_loop img spare fuel (off + (d.length + 2 + 2))
          { image with dqt := image.dqt ++ [d] })
      else if m = 0xc4 then
        (if (image.dht ++ [d]).length > 9 then Outcome.error ParseError.tooManyDHT
        else parse_loop img spare fuel (off + (d.length + 2 + 2))
          { image with dht := image.dht ++ [d] })
      else parse_loop img spare fuel (off + (d.length + 2 + 2)) image) := by
  subst himg hoff
  simp only [parse_loop, read_written pre post spare d m hm hd, Outcome.ok_bind]
  rfl

/-- The loop over a run of written quantization tables that stays below the limit. -/
theorem parse_loop_dqts (spare : List Byte) (ts : List (List Byte)) :
    ∀ (img pre post : List Byte) (off fuel : Nat) (image : JPEG),
      img = pre ++ (ts.map (write_jpeg_segment 0xdb)).flatten ++ post →
      off = pre.length → (∀ t ∈ ts, t.length ≤ 65533) → image.dqt.length + ts.length ≤ 9 →
      parse_loop img spare (fuel + ts.length) off image =
        parse_loop img spare fuel
          (off + ((ts.map (write_jpeg_segment 0xdb)).flatten).length)
          { image with dqt := image.dqt ++ ts } := by
  induction ts with
  | nil => intro img pre post off fuel image _ _ _ _; simp
  | cons t ts ih =>
    intro img pre post off fuel image himg hoff hts hlen
    have ht : t.length ≤ 65533 := hts t (List.mem_cons_self _ _)
    simp only [List.length_cons] at hlen ⊢
    rw [← Nat.add_assoc,
      parse_loop_written spare img pre ((ts.map (write_jpeg_segment 0xdb)).flatten ++ post) t
        0xdb off (by rw [himg]; simp) hoff (by decide) ht]
    simp only [Nat.reduceEqDiff, if_false, if_true, List.length_append, List.length_cons,
      List.length_nil]
    rw [if_neg (by omega)]
    rw [ih img (pre ++ write_jpeg_segment 0xdb t) post _ fuel _ (by rw [himg]; simp)
      (by rw [hoff]; simp [write_jpeg_segment_length])
      (fun u hu => hts u (List.mem_cons_of_mem _ hu)) (by simp; omega)]
    simp [write_jpeg_segment_length, Nat.add_assoc]

/-- The loop over a run of written huffman tables that stays below the limit. -/
theorem parse_loop_dhts (spare : List Byte) (ts : List (List Byte)) :
    ∀ (img pre post : List Byte) (off fuel : Nat) (image : JPEG),
      img = pre ++ (ts.map (write_jpeg_segment 0xc4)).flatten ++ post →
      off = pre.length → (∀ t ∈ ts, t.length ≤ 65533) → image.dht.length + ts.length ≤ 9 →
      parse_loop img spare (fuel + ts.length) off image =
        parse_loop img spare fuel
          (off + ((ts.map (write_jpeg_segment 0xc4)).flatten).length)
          { image with dht := image.dht ++ ts } := by
  induction ts with
  | nil => intro img pre post off fuel image _ _ _ _; simp
  | cons t ts ih =>
    intro img pre post off fuel image himg hoff hts hlen
    have ht : t.length ≤ 65533 := hts t (List.mem_cons_self _ _)
    simp only [List.length_cons] at hlen ⊢
    rw [← Nat.add_assoc,
      parse_loop_written spare img pre ((ts.map (write_jpeg_segment 0xc4)).flatten ++ post) t
        0xc4 off (by rw [himg]; simp) hoff (by decide) ht]
    simp only [Nat.reduceEqDiff, if_false, if_true, List.length_append, List.length_cons,
      List.length_nil]
    rw [if_neg (by omega)]
    rw [ih img (pre ++ write_jpeg_segment 0xc4 t) post _ fuel _ (by rw [himg]; simp)
      (by rw [hoff]; simp [write_jpeg_segment_length])
      (fun u hu => hts u (List.mem_cons_of_mem _ hu)) (by simp; omega)]
    simp [write_jpeg_segment_length, Nat.add_assoc]

/-! ## The codec: round trip -/

/-- What `write_jpeg` emits before the scan data. -/
theorem write_jpeg_eq (r : JPEG) :
    write_jpeg r =
      ([0xff, 0xd8] ++ write_jpeg_segment 0xfe r.comment
        ++ (r.dqt.map (write_jpeg_segment 0xdb)).flatten
        ++ write_jpeg_segment 0xc0 r.sof0
        ++ (r.dht.map (write_jpeg_segment 0xc4)).flatten
        ++ write_jpeg_segment 0xda r.sos) ++ (r.img ++ [0xff, 0xd9]) := by
  simp [write_jpeg]

theorem flatten_segments_length (m : Nat) (ts : List (List Byte)) :
    ts.length ≤ ((ts.map (write_jpeg_segment m)).flatten).length := by
  induction ts with
  | nil => simp
  | cons t ts ih =>
    simp only [List.map_cons, List.flatten_cons, List.length_append, List.length_cons,
      write_jpeg_segment_length]
    omega

theorem badHeader_write (r : JPEG) : badHeader (write_jpeg r) = Outcome.ok false := by
  simp [badHeader, index, write_jpeg]

theorem badFooter_write (r : JPEG) : badFooter (write_jpeg r) = Outcome.ok false := by
  obtain ⟨X, e⟩ : ∃ X, write_jpeg r = X ++ (0xff : Byte) :: [0xd9] :=
    ⟨[0xff, 0xd8] ++ write_jpeg_segment 0xfe r.comment
      ++ (r.dqt.map (write_jpeg_segment 0xdb)).flatten ++ write_jpeg_segment 0xc0 r.sof0
      ++ (r.dht.map (write_jpeg_segment 0xc4)).flatten ++ write_jpeg_segment 0xda r.sos
      ++ r.img, by simp [write_jpeg]⟩
  have hi := index_append X [0xd9] (0xff : Byte)
  unfold badFooter
  rw [e, if_neg (by simp)]
  have h2 : (X ++ (0xff : Byte) :: [0xd9]).length - 2 = X.length := by simp
  rw [h2, hi]
  rfl

/-- The loop of `parse_jpeg` over the output of `write_jpeg`, on the exact budget. -/
theorem parse_loop_write (r : JPEG) (spare : List Byte) (h : r.wellFormed 9) :
    parse_loop (write_jpeg r) spare (0 + 1 + r.dht.length + 1 + r.dqt.length + 1) 2 JPEG.zero
      = Outcome.ok ({ r with img := [] },
          (write_jpeg r).length - (r.img.length + 2)) := by
  obtain ⟨hq, hh, hc, hf, hs, hqt, hht⟩ := h
  rw [parse_loop_written spare (write_jpeg r) [0xff, 0xd8]
    ((r.dqt.map (write_jpeg_segment 0xdb)).flatten
        ++ write_jpeg_segment 0xc0 r.sof0
        ++ (r.dht.map (write_jpeg_segment 0xc4)).flatten
        ++ write_jpeg_segment 0xda r.sos ++ (r.img ++ [0xff, 0xd9]))
    r.comment 0xfe 2 (by simp [write_jpeg]) rfl (by decide) hc]
  rw [if_pos rfl]
  rw [parse_loop_dqts spare r.dqt (write_jpeg r) ([0xff, 0xd8] ++ write_jpeg_segment 0xfe r.comment)
    (write_jpeg_segment 0xc0 r.sof0
        ++ (r.dht.map (write_jpeg_segment 0xc4)).flatten
        ++ write_jpeg_segment 0xda r.sos ++ (r.img ++ [0xff, 0xd9]))
    _ _ _ (by simp [write_jpeg]) (by simp only [List.length_append, List.length_cons, List.length_nil, write_jpeg_segment_length]; try omega) hqt
    (by simp [JPEG.zero]; exact hq)]
  rw [parse_loop_written spare (write_jpeg r)
    ([0xff, 0xd8] ++ write_jpeg_segment 0xfe r.comment
      ++ (r.dqt.map (write_jpeg_segment 0xdb)).flatten)
    ((r.dht.map (write_jpeg_segment 0xc4)).flatten
        ++ write_jpeg_segment 0xda r.sos ++ (r.img ++ [0xff, 0xd9]))
    r.sof0 0xc0 _ (by simp [write_jpeg]) (by simp only [List.length_append, List.length_cons, List.length_nil, write_jpeg_segment_length]; try omega)
    (by decide) hf]
  rw [if_neg (by decide), if_pos rfl]
  rw [parse_loop_dhts spare r.dht (write_jpeg r)
    ([0xff, 0xd8] ++ write_jpeg_segment 0xfe r.comment
      ++ (r.dqt.map (write_jpeg_segment 0xdb)).flatten ++ write_jpeg_segment 0xc0 r.sof0)
    (write_jpeg_segment 0xda r.sos ++ (r.img ++ [0xff, 0xd9]))
    _ _ _ (by simp [write_jpeg]) (by simp only [List.length_append, List.length_cons, List.length_nil, write_jpeg_segment_length]; try omega) hht
    (by simp [JPEG.zero]; exact hh)]
  rw [parse_loop_written spare (write_jpeg r)
    ([0xff, 0xd8] ++ write_jpeg_segment 0xfe r.comment
      ++ (r.dqt.map (write_jpeg_segment 0xdb)).flatten ++ write_jpeg_segment 0xc0 r.sof0
      ++ (r.dht.map (write_jpeg_segment 0xc4)).flatten)
    (r.img ++ [0xff, 0xd9])
    r.sos 0xda _ (by simp [write_jpeg]) (by simp only [List.length_append, List.length_cons, List.length_nil, write_jpeg_segment_length]; try omega)
    (by decide) hs]
  rw [if_neg (by decide), if_neg (by decide), if_pos rfl]
  have hlen : (write_jpeg r).length =
      ([0xff, 0xd8] ++ write_jpeg_segment 0xfe r.comment
        ++ (r.dqt.map (write_jpeg_segment 0xdb)).flatten
        ++ write_jpeg_segment 0xc0 r.sof0
        ++ (r.dht.map (write_jpeg_segment 0xc4)).flatten
        ++ write_jpeg_segment 0xda r.sos).length + (r.img.length + 2) := by
    rw [write_jpeg_eq]
    simp only [List.length_append, List.length_cons, List.length_nil]
  simp only [List.length_append, List.length_cons, List.length_nil,
    write_jpeg_segment_length] at hlen
  simp only [JPEG.zero, List.nil_append, Outcome.ok.injEq, Prod.mk.injEq, true_and]
  omega

/-- Round trip below the table limit: `parse_jpeg` reads back every record with at most
nine tables of each kind from the bytes `write_jpeg` emitted for it. -/
theorem parse_write (r : JPEG) (spare : List Byte) (h : r.wellFormed 9) :
    parse_jpeg (write_jpeg r) spare = Outcome.ok r := by
  have hlen : (write_jpeg r).length =
      ([0xff, 0xd8] ++ write_jpeg_segment 0xfe r.comment
        ++ (r.dqt.map (write_jpeg_segment 0xdb)).flatten
        ++ write_jpeg_segment 0xc0 r.sof0
        ++ (r.dht.map (write_jpeg_segment 0xc4)).flatten
        ++ write_jpeg_segment 0xda r.sos).length + (r.img.length + 2) := by
    rw [write_jpeg_eq]
    simp only [List.length_append, List.length_cons, List.length_nil]
  have hq := flatten_segments_length 0xdb r.dqt
  have hh := flatten_segments_length 0xc4 r.dht
  have hloop := parse_loop_write r spare h
  have hk : (write_jpeg r).length + 1
      = (0 + 1 + r.dht.length + 1 + r.dqt.length + 1)
        + ((write_jpeg r).length + 1 - (0 + 1 + r.dht.length + 1 + r.dqt.length + 1)) := by
    simp only [List.length_append, List.length_cons, List.length_nil,
      write_jpeg_segment_length] at hlen
    omega
  unfold parse_jpeg
  rw [badHeader_write, badFooter_write]
  simp only [Outcome.ok_bind, Bool.false_eq_true, if_false]
  rw [hk, parse_loop_mono _ _ _ _ _ _ (by rw [hloop]; simp), hloop]
  simp only [Outcome.ok_bind]
  have ho : (write_jpeg r).length - (r.img.length + 2) =
      ([0xff, 0xd8] ++ write_jpeg_segment 0xfe r.comment
        ++ (r.dqt.map (write_jpeg_segment 0xdb)).flatten
        ++ write_jpeg_segment 0xc0 r.sof0
        ++ (r.dht.map (write_jpeg_segment 0xc4)).flatten
        ++ write_jpeg_segment 0xda r.sos).length := by omega
  have hi : (write_jpeg r).length - 2 =
      ([0xff, 0xd8] ++ write_jpeg_segment 0xfe r.comment
        ++ (r.dqt.map (write_jpeg_segment 0xdb)).flatten
        ++ write_jpeg_segment 0xc0 r.sof0
        ++ (r.dht.map (write_jpeg_segment 0xc4)).flatten
        ++ write_jpeg_segment 0xda r.sos).length + r.img.length := by omega
  rw [ho, hi, write_jpeg_eq, slice_mid]
  rfl

/-! ## The codec: what a successful parse returns, and termination -/

/-- What `read_jpeg_segment` has checked when it returns a segment. -/
theorem read_jpeg_segment_ok {img spare data : List Byte} {off sect size : Nat}
    (h : read_jpeg_segment img spare off = Outcome.ok (sect, size, data)) :
    off + 3 < img.length ∧ 2 ≤ size ∧ size ≤ 65535 ∧ data.length = size - 2 := by
  unfold read_jpeg_segment at h
  cases h0 : index img off with
  | ok b0 =>
    rw [h0] at h
    simp only [Outcome.ok_bind] at h
    split_ifs at h
    cases h1 : index img (off + 1) with
    | ok b1 =>
      cases h2 : index img (off + 2) with
      | ok b2 =>
        cases h3 : index img (off + 3) with
        | ok b3 =>
          rw [h1, h2, h3] at h
          simp only [Outcome.ok_bind] at h
          cases hs : slice img spare (off + 4) (off + 4 + (b2.val * 256 + b3.val) - 2) with
          | ok res =>
            rw [hs] at h
            simp only [Outcome.ok_bind, Outcome.pure_eq, Outcome.ok.injEq, Prod.mk.injEq] at h
            obtain ⟨_, hsz, hres⟩ := h
            have hb2 := b2.isLt
            have hb3 := b3.isLt
            have hl := slice_eq_ok hs
            have hi := index_eq_ok h3
            subst hsz hres
            omega
          | error e => rw [hs] at h; simp at h
          | crash => rw [hs] at h; simp at h
          | outOfFuel => rw [hs] at h; simp at h
        | error e => rw [h1, h2, h3] at h; simp at h
        | crash => rw [h1, h2, h3] at h; simp at h
        | outOfFuel => rw [h1, h2, h3] at h; simp at h
      | error e => rw [h1, h2] at h; simp at h
      | crash => rw [h1, h2] at h; simp at h
      | outOfFuel => rw [h1, h2] at h; simp at h
    | error e => rw [h1] at h; simp at h
    | crash => rw [h1] at h; simp at h
    | outOfFuel => rw [h1] at h; simp at h
  | error e => rw [h0] at h; simp at h
  | crash => rw [h0] at h; simp at h
  | outOfFuel => rw [h0] at h; simp at h

theorem read_jpeg_segment_ne_outOfFuel (img spare : List Byte) (off : Nat) :
    read_jpeg_segment img spare off ≠ Outcome.outOfFuel := by
  unfold read_jpeg_segment
  refine Outcome.bind_ne_outOfFuel (index_ne_outOfFuel _ _) (fun b0 _ => ?_)
  split_ifs
  · simp
  · refine Outcome.bind_ne_outOfFuel (index_ne_outOfFuel _ _) (fun b1 _ => ?_)
    refine Outcome.bind_ne_outOfFuel (index_ne_outOfFuel _ _) (fun b2 _ => ?_)
    refine Outcome.bind_ne_outOfFuel (index_ne_outOfFuel _ _) (fun b3 _ => ?_)
    refine Outcome.bind_ne_outOfFuel (slice_ne_outOfFuel _ _ _ _) (fun res _ => ?_)
    simp

/-- The budget of the loop is never exhausted: every turn that goes on has read a segment
inside the input and moves the offset forward. -/
theorem parse_loop_fuel (img spare : List Byte) :
    ∀ (fuel off : Nat) (image : JPEG), 1 ≤ fuel → img.length + 1 ≤ fuel + off →
      parse_loop img spare fuel off image ≠ Outcome.outOfFuel := by
  intro fuel
  induction fuel with
  | zero => intro off image h; omega
  | succ f ih =>
    intro off image _ hf
    simp only [parse_loop]
    refine Outcome.bind_ne_outOfFuel (read_jpeg_segment_ne_outOfFuel _ _ _) (fun v hv => ?_)
    obtain ⟨sect, size, data⟩ := v
    have hr := read_jpeg_segment_ok hv
    have h1 : 1 ≤ f := by omega
    have h2 : img.length + 1 ≤ f + (off + (size + 2)) := by omega
    simp only []
    split_ifs <;> first | exact ih _ _ h1 h2 | simp

/-- The model of `parse_jpeg` never runs out of budget: the source loop terminates on
every input. -/
theorem parse_jpeg_fuel (img spare : List Byte) : parse_jpeg img spare ≠ Outcome.outOfFuel := by
  unfold parse_jpeg
  have hH : badHeader img ≠ Outcome.outOfFuel := by
    unfold badHeader
    refine Outcome.bind_ne_outOfFuel (index_ne_outOfFuel _ _) (fun b0 _ => ?_)
    split_ifs
    · exact Outcome.bind_ne_outOfFuel (index_ne_outOfFuel _ _) (fun b1 _ => by simp)
    · simp
  have hF : badFooter img ≠ Outcome.outOfFuel := by
    unfold badFooter
    split_ifs
    · simp
    · refine Outcome.bind_ne_outOfFuel (index_ne_outOfFuel _ _) (fun b0 _ => ?_)
      split_ifs
      · exact Outcome.bind_ne_outOfFuel (index_ne_outOfFuel _ _) (fun b1 _ => by simp)
      · simp
  refine Outcome.bind_ne_outOfFuel hH (fun bh _ => ?_)
  split_ifs
  · simp
  · refine Outcome.bind_ne_outOfFuel hF (fun bf _ => ?_)
    split_ifs
    · simp
    · refine Outcome.bind_ne_outOfFuel
        (parse_loop_fuel img spare _ _ _ (by omega) (by omega)) (fun v _ => ?_)
      exact Outcome.bind_ne_outOfFuel (slice_ne_outOfFuel _ _ _ _) (fun rest _ => by simp)

/-- The loop keeps the invariant of the record: at most nine tables of each kind and
payloads that fit a 16-bit length field. -/
theorem parse_loop_wellFormed (img spare : List Byte) :
    ∀ (fuel off : Nat) (image r : JPEG) (off1 : Nat),
      parse_loop img spare fuel off image = Outcome.ok (r, off1) →
      image.wellFormed 9 → r.wellFormed 9 ∧ r.img = image.img := by
  intro fuel
  induction fuel with
  | zero => intro off image r off1 h; simp [parse_loop] at h
  | succ f ih =>
    intro off image r off1 h hw
    simp only [parse_loop] at h
    obtain ⟨v, hv, h⟩ := Outcome.bind_eq_ok.mp h
    obtain ⟨sect, size, data⟩ := v
    have hr := read_jpeg_segment_ok hv
    have hd : data.length ≤ 65533 := by omega
    obtain ⟨hq, hh, hc, hf, hs, hqt, hht⟩ := hw
    simp only [] at h
    split_ifs at h with c1 c2 c3 c4 c5 c6 c7
    · have key := ih _ _ _ _ h ⟨hq, hh, hd, hf, hs, hqt, hht⟩
      exact key
    · have key := ih _ _ _ _ h ⟨hq, hh, hc, hd, hs, hqt, hht⟩
      exact key
    · simp only [Outcome.pure_eq, Outcome.ok.injEq, Prod.mk.injEq] at h
      obtain ⟨h, _⟩ := h
      subst h
      exact ⟨⟨hq, hh, hc, hf, hd, hqt, hht⟩, rfl⟩
    · simp only [List.length_append, List.length_cons, List.length_nil] at c5
      have hqt1 : ∀ t ∈ image.dqt ++ [data], t.length ≤ 65533 := by
        intro t ht
        rcases List.mem_append.mp ht with ht | ht
        · exact hqt t ht
        · rw [List.mem_singleton.mp ht]; exact hd
      have hq1 : (image.dqt ++ [data]).length ≤ 9 := by
        simp only [List.length_append, List.length_cons, List.length_nil]; omega
      have key := ih _ _ _ _ h ⟨hq1, hh, hc, hf, hs, hqt1, hht⟩
      exact key
    · simp only [List.length_append, List.length_cons, List.length_nil] at c7
      have hht1 : ∀ t ∈ image.dht ++ [data], t.length ≤ 65533 := by
        intro t ht
        rcases List.mem_append.mp ht with ht | ht
        · exact hht t ht
        · rw [List.mem_singleton.mp ht]; exact hd
      have hh1 : (image.dht ++ [data]).length ≤ 9 := by
        simp only [List.length_append, List.length_cons, List.length_nil]; omega
      have key := ih _ _ _ _ h ⟨hq, hh1, hc, hf, hs, hqt, hht1⟩
      exact key
    · exact ih _ _ _ _ h ⟨hq, hh, hc, hf, hs, hqt, hht⟩

/-- Every record that `parse_jpeg` returns has at most nine tables of each kind and
payloads that fit a 16-bit length field. -/
theorem parse_jpeg_wellFormed {img spare : List Byte} {r : JPEG}
    (h : parse_jpeg img spare = Outcome.ok r) : r.wellFormed 9 := by
  unfold parse_jpeg at h
  obtain ⟨bh, _, h⟩ := Outcome.bind_eq_ok.mp h
  split_ifs at h
  obtain ⟨bf, _, h⟩ := Outcome.bind_eq_ok.mp h
  split_ifs at h
  obtain ⟨v, hv, h⟩ := Outcome.bind_eq_ok.mp h
  obtain ⟨image, off1⟩ := v
  obtain ⟨rest, _, h⟩ := Outcome.bind_eq_ok.mp h
  simp only [Outcome.pure_eq, Outcome.ok.injEq] at h
  have hz : JPEG.zero.wellFormed 9 := by
    simp [JPEG.wellFormed, JPEG.zero]
  obtain ⟨⟨hq, hh, hc, hf, hs, hqt, hht⟩, _⟩ := parse_loop_wellFormed _ _ _ _ _ _ _ hv hz
  subst h
  exact ⟨hq, hh, hc, hf, hs, hqt, hht⟩

/-! ## The codec: a returned record comes from inside the input -/

theorem slice_inside {img spare d : List Byte} {a b : Nat} (spare1 : List Byte)
    (h : slice img spare a b = Outcome.ok d) (hb : b ≤ img.length) :
    slice img spare1 a b = Outcome.ok d := by
  unfold slice at h ⊢
  split at h
  · rename_i hc
    rw [if_pos ⟨hc.1, by omega⟩]
    have ha : a ≤ img.length := by omega
    have hl : b - a ≤ (img.drop a).length := by
      simp only [List.length_drop]; omega
    rw [List.drop_append_of_le_length ha, List.take_append_of_le_length hl] at h ⊢
    exact h
  · cases h

theorem read_jpeg_segment_inside {img spare data : List Byte} {off sect size : Nat}
    (spare1 : List Byte)
    (h : read_jpeg_segment img spare off = Outcome.ok (sect, size, data))
    (hb : off + size + 2 ≤ img.length) :
    read_jpeg_segment img spare1 off = Outcome.ok (sect, size, data) := by
  unfold read_jpeg_segment at h ⊢
  obtain ⟨b0, h0, h⟩ := Outcome.bind_eq_ok.mp h
  rw [h0]
  simp only [Outcome.ok_bind]
  split_ifs at h ⊢
  obtain ⟨b1, h1, h⟩ := Outcome.bind_eq_ok.mp h
  obtain ⟨b2, h2, h⟩ := Outcome.bind_eq_ok.mp h
  obtain ⟨b3, h3, h⟩ := Outcome.bind_eq_ok.mp h
  obtain ⟨res, hs, h⟩ := Outcome.bind_eq_ok.mp h
  simp only [Outcome.pure_eq, Outcome.ok.injEq, Prod.mk.injEq] at h
  obtain ⟨hsect, hsize, hres⟩ := h
  rw [h1, h2, h3]
  simp only [Outcome.ok_bind]
  rw [slice_inside spare1 hs (by rw [hsize]; omega)]
  simp only [Outcome.ok_bind, Outcome.pure_eq, hsect, hsize, hres]

/-- A loop that returns has read a whole segment header at its offset. -/
theorem parse_loop_ok_header {img spare : List Byte} {fuel off : Nat} {image : JPEG}
    {v : JPEG × Nat} (h : parse_loop img spare fuel off image = Outcome.ok v) :
    off + 3 < img.length := by
  cases fuel with
  | zero => simp [parse_loop] at h
  | succ f =>
    simp only [parse_loop] at h
    obtain ⟨u, hu, _⟩ := Outcome.bind_eq_ok.mp h
    obtain ⟨sect, size, data⟩ := u
    exact (read_jpeg_segment_ok hu).1

/-- A loop that returns with its offset inside the input has taken every payload from
inside the input: what stands behind the input does not matter. -/
theorem parse_loop_inside (img spare spare1 : List Byte) :
    ∀ (fuel off : Nat) (image r : JPEG) (off1 : Nat),
      parse_loop img spare fuel off image = Outcome.ok (r, off1) → off1 ≤ img.length →
      parse_loop img spare1 fuel off image = Outcome.ok (r, off1) := by
  intro fuel
  induction fuel with
  | zero => intro off image r off1 h; simp [parse_loop] at h
  | succ f ih =>
    intro off image r off1 h hoff
    simp only [parse_loop] at h ⊢
    obtain ⟨v, hv, h⟩ := Outcome.bind_eq_ok.mp h
    obtain ⟨sect, size, data⟩ := v
    have hnext : ∀ (im : JPEG),
        parse_loop img spare f (off + (size + 2)) im = Outcome.ok (r, off1) →
        read_jpeg_segment img spare1 off = Outcome.ok (sect, size, data) := by
      intro im him
      have := parse_loop_ok_header him
      exact read_jpeg_segment_inside spare1 hv (by omega)
    simp only [] at h
    split_ifs at h with c1 c2 c3 c4 c5 c6 c7
    · rw [hnext _ h]
      simp only [Outcome.ok_bind, if_pos c1]
      exact ih _ _ _ _ h hoff
    · rw [hnext _ h]
      simp only [Outcome.ok_bind, if_neg c1, if_pos c2]
      exact ih _ _ _ _ h hoff
    · simp only [Outcome.pure_eq, Outcome.ok.injEq, Prod.mk.injEq] at h
      obtain ⟨hr, ho⟩ := h
      rw [read_jpeg_segment_inside spare1 hv (by omega)]
      simp only [Outcome.ok_bind, if_neg c1, if_neg c2, if_pos c3, Outcome.pure_eq, hr, ho]
    · rw [hnext _ h]
      simp only [Outcome.ok_bind, if_neg c1, if_neg c2, if_neg c3, if_pos c4, if_neg c5]
      exact ih _ _ _ _ h hoff
    · rw [hnext _ h]
      simp only [Outcome.ok_bind, if_neg c1, if_neg c2, if_neg c3, if_neg c4, if_pos c6,
        if_neg c7]
      exact ih _ _ _ _ h hoff
    · rw [hnext _ h]
      simp only [Outcome.ok_bind, if_neg c1, if_neg c2, if_neg c3, if_neg c4, if_neg c6]
      exact ih _ _ _ _ h hoff

/-- A record that `parse_jpeg` returns does not depend on what the backing array holds
behind the input. -/
theorem parse_jpeg_inside {img spare : List Byte} {r : JPEG} (spare1 : List Byte)
    (h : parse_jpeg img spare = Outcome.ok r) : parse_jpeg img spare1 = Outcome.ok r := by
  unfold parse_jpeg at h ⊢
  obtain ⟨bh, hbh, h⟩ := Outcome.bind_eq_ok.mp h
  rw [hbh]
  simp only [Outcome.ok_bind]
  split_ifs at h ⊢
  obtain ⟨bf, hbf, h⟩ := Outcome.bind_eq_ok.mp h
  rw [hbf]
  simp only [Outcome.ok_bind]
  split_ifs at h ⊢
  obtain ⟨v, hv, h⟩ := Outcome.bind_eq_ok.mp h
  obtain ⟨image, off1⟩ := v
  obtain ⟨rest, hrest, h⟩ := Outcome.bind_eq_ok.mp h
  have hle := (slice_eq_ok hrest).1
  rw [parse_loop_inside img spare spare1 _ _ _ _ _ hv (by omega)]
  simp only [Outcome.ok_bind]
  rw [slice_inside spare1 hrest (by omega)]
  exact h

/-! ## The codec: framed streams are decoded without a panic -/

theorem index_lt (img : List Byte) (i : Nat) (h : i < img.length) :
    ∃ b, index img i = Outcome.ok b := by
  unfold index
  rw [List.getElem?_eq_getElem h]
  exact ⟨_, rfl⟩

theorem badHeader_ok (img : List Byte) (h : 2 ≤ img.length) :
    ∃ b, badHeader img = Outcome.ok b := by
  obtain ⟨b0, h0⟩ := index_lt img 0 (by omega)
  obtain ⟨b1, h1⟩ := index_lt img 1 (by omega)
  unfold badHeader
  rw [h0]
  simp only [Outcome.ok_bind]
  split_ifs
  · rw [h1]; exact ⟨_, rfl⟩
  · exact ⟨_, rfl⟩

theorem badFooter_ok (img : List Byte) (h : 2 ≤ img.length) :
    ∃ b, badFooter img = Outcome.ok b := by
  obtain ⟨b0, h0⟩ := index_lt img (img.length - 2) (by omega)
  obtain ⟨b1, h1⟩ := index_lt img (img.length - 1) (by omega)
  unfold badFooter
  rw [if_neg (by omega)]
  rw [h0]
  simp only [Outcome.ok_bind]
  split_ifs
  · rw [h1]; exact ⟨_, rfl⟩
  · exact ⟨_, rfl⟩

theorem flatten_framed_length (segs : List (Byte × List Byte)) :
    segs.length ≤ ((segs.map (fun s => write_jpeg_segment s.1.val s.2)).flatten).length := by
  induction segs with
  | nil => simp
  | cons t ts ih =>
    simp only [List.map_cons, List.flatten_cons, List.length_append, List.length_cons,
      write_jpeg_segment_length]
    omega

/-- The loop over complete segments that end in a complete scan header with at least two
bytes behind it: whatever stands behind the input, it returns the same result, which is a
too-many-segments error or a record with an offset that leaves room for the end marker. -/
theorem parse_loop_framed (sos post : List Byte) (hsos : sos.length ≤ 65533)
    (hpost : 2 ≤ post.length) :
    ∀ (segs : List (Byte × List Byte)), (∀ s ∈ segs, s.2.length ≤ 65533) →
    ∀ (img pre : List Byte) (off fuel : Nat) (image : JPEG),
      img = pre ++ ((segs.map (fun s => write_jpeg_segment s.1.val s.2)).flatten
        ++ (write_jpeg_segment 0xda sos ++ post)) →
      off = pre.length →
      ∃ res, (∀ spare, parse_loop img spare (fuel + segs.length + 1) off image = res)
        ∧ (res = Outcome.error ParseError.tooManyDQT ∨ res = Outcome.error ParseError.tooManyDHT
          ∨ ∃ r off1, res = Outcome.ok (r, off1) ∧ off1 + 2 ≤ img.length) := by
  intro segs
  induction segs with
  | nil =>
    intro _ img pre off fuel image himg hoff
    have hlen : img.length = pre.length + (sos.length + 4) + post.length := by
      rw [himg]
      simp only [List.map_nil, List.flatten_nil, List.nil_append, List.length_append,
        write_jpeg_segment_length]
      omega
    refine ⟨Outcome.ok ({ image with sos := sos }, off + (sos.length + 2 + 2)), ?_, ?_⟩
    · intro spare
      rw [List.length_nil, Nat.add_zero,
        parse_loop_written spare img pre post sos 0xda off (by rw [himg]; simp) hoff
          (by decide) hsos fuel image]
      rw [if_neg (by decide), if_neg (by decide), if_pos rfl]
    · exact Or.inr (Or.inr ⟨_, _, rfl, by omega⟩)
  | cons s segs ih =>
    intro hsegs img pre off fuel image himg hoff
    have hd : s.2.length ≤ 65533 := hsegs s (List.mem_cons_self _ _)
    have hrest : ∀ t ∈ segs, t.2.length ≤ 65533 :=
      fun t ht => hsegs t (List.mem_cons_of_mem _ ht)
    have hlen : img.length = pre.length + (s.2.length + 4)
        + ((segs.map (fun s => write_jpeg_segment s.1.val s.2)).flatten).length
        + (sos.length + 4) + post.length := by
      rw [himg]
      simp only [List.map_cons, List.flatten_cons, List.length_append,
        write_jpeg_segment_length]
      omega
    have step : ∀ im : JPEG, ∃ res,
        (∀ spare, parse_loop img spare (fuel + segs.length + 1)
            (off + (s.2.length + 2 + 2)) im = res)
          ∧ (res = Outcome.error ParseError.tooManyDQT
            ∨ res = Outcome.error ParseError.tooManyDHT
            ∨ ∃ r off1, res = Outcome.ok (r, off1) ∧ off1 + 2 ≤ img.length) :=
      fun im => ih hrest img (pre ++ write_jpeg_segment s.1.val s.2) _ fuel im
        (by rw [himg]; simp)
        (by rw [hoff]; simp only [List.length_append, write_jpeg_segment_length]; try omega)
    obtain ⟨r1, a1, b1⟩ := step { image with comment := s.2 }
    obtain ⟨r2, a2, b2⟩ := step { image with sof0 := s.2 }
    obtain ⟨r3, a3, b3⟩ := step { image with dqt := image.dqt ++ [s.2] }
    obtain ⟨r4, a4, b4⟩ := step { image with dht := image.dht ++ [s.2] }
    obtain ⟨r5, a5, b5⟩ := step image
    have e : fuel + (s :: segs).length + 1 = (fuel + segs.length + 1) + 1 := by
      simp only [List.length_cons]; omega
    refine ⟨(if s.1.val = 0xfe then r1
      else if s.1.val = 0xc0 then r2
      else if s.1.val = 0xda then
        Outcome.ok ({ image with sos := s.2 }, off + (s.2.length + 2 + 2))
      else if s.1.val = 0xdb then
        (if (image.dqt ++ [s.2]).length > 9 then Outcome.error ParseError.tooManyDQT else r3)
      else if s.1.val = 0xc4 then
        (if (image.dht ++ [s.2]).length > 9 then Outcome.error ParseError.tooManyDHT else r4)
      else r5), ?_, ?_⟩
    · intro spare
      rw [e, parse_loop_written spare img pre
        ((segs.map (fun s => write_jpeg_segment s.1.val s.2)).flatten
          ++ (write_jpeg_segment 0xda sos ++ post)) s.2 s.1.val off
        (by rw [himg]; simp) hoff s.1.isLt hd (fuel + segs.length + 1) image,
        a1 spare, a2 spare, a3 spare, a4 spare, a5 spare]
    · split_ifs
      · exact b1
      · exact b2
      · exact Or.inr (Or.inr ⟨_, _, rfl, by omega⟩)
      · exact Or.inl rfl
      · exact b3
      · exact Or.inr (Or.inl rfl)
      · exact b4
      · exact b5

/-- On a framed stream `parse_jpeg` returns the same result whatever stands behind the
input, and the result is a record or one of four format errors: never a panic. -/
theorem parse_framed (head sos data foot : List Byte) (segs : List (Byte × List Byte))
    (hhead : head.length = 2) (hfoot : foot.length = 2)
    (hsegs : ∀ s ∈ segs, s.2.length ≤ 65533) (hsos : sos.length ≤ 65533) :
    ∃ res, (∀ spare, parse_jpeg (framedStream head segs sos data foot) spare = res)
      ∧ ((∃ r, res = Outcome.ok r) ∨ res = Outcome.error ParseError.badHeader
        ∨ res = Outcome.error ParseError.badFooter
        ∨ res = Outcome.error ParseError.tooManyDQT
        ∨ res = Outcome.error ParseError.tooManyDHT) := by
  have himg : framedStream head segs sos data foot
      = head ++ ((segs.map (fun s => write_jpeg_segment s.1.val s.2)).flatten
        ++ (write_jpeg_segment 0xda sos ++ (data ++ foot))) := by
    simp [framedStream]
  have hfl := flatten_framed_length segs
  have hlen : (framedStream head segs sos data foot).length
      = 2 + ((segs.map (fun s => write_jpeg_segment s.1.val s.2)).flatten).length
        + (sos.length + 4) + data.length + 2 := by
    rw [himg]
    simp only [List.length_append, write_jpeg_segment_length, hhead, hfoot]
    omega
  generalize framedStream head segs sos data foot = img at himg hlen
  obtain ⟨bh, hbh⟩ := badHeader_ok img (by omega)
  obtain ⟨bf, hbf⟩ := badFooter_ok img (by omega)
  obtain ⟨res0, hall, hshape⟩ := parse_loop_framed sos (data ++ foot) hsos
    (by simp only [List.length_append, hfoot]; omega) segs hsegs img head 2
    (img.length - segs.length) JPEG.zero himg hhead.symm
  have e : img.length + 1 = img.length - segs.length + segs.length + 1 := by omega
  unfold parse_jpeg
  rw [hbh, hbf, e]
  simp only [Outcome.ok_bind]
  by_cases c1 : bh = true
  · refine ⟨Outcome.error ParseError.badHeader, ?_, Or.inr (Or.inl rfl)⟩
    intro spare
    rw [if_pos c1]
  · by_cases c2 : bf = true
    · refine ⟨Outcome.error ParseError.badFooter, ?_, Or.inr (Or.inr (Or.inl rfl))⟩
      intro spare
      rw [if_neg c1, if_pos c2]
    · rcases hshape with h | h | ⟨r, off1, h, hoff1⟩
      · refine ⟨Outcome.error ParseError.tooManyDQT, ?_,
          Or.inr (Or.inr (Or.inr (Or.inl rfl)))⟩
        intro spare
        rw [if_neg c1, if_neg c2, hall spare, h]
        rfl
      · refine ⟨Outcome.error ParseError.tooManyDHT, ?_,
          Or.inr (Or.inr (Or.inr (Or.inr rfl)))⟩
        intro spare
        rw [if_neg c1, if_neg c2, hall spare, h]
        rfl
      · have hs0 : slice img [] off1 (img.length - 2)
            = Outcome.ok (((img ++ []).drop off1).take (img.length - 2 - off1)) := by
          unfold slice
          rw [if_pos ⟨by omega, by simp⟩]
        refine ⟨Outcome.ok { r with img := ((img ++ []).drop off1).take (img.length - 2 - off1) },
          ?_, Or.inl ⟨_, rfl⟩⟩
        intro spare
        rw [if_neg c1, if_neg c2, hall spare, h]
        simp only [Outcome.ok_bind]
        rw [slice_inside spare hs0 (by omega)]
        rfl

/-- An input of fewer than two bytes ends in a panic. -/
theorem parse_jpeg_short (img spare : List Byte) (h : img.length < 2) :
    parse_jpeg img spare = Outcome.crash := by
  match img, h with
  | [], _ => rfl
  | [b], _ =>
    by_cases hb : b = 0xff
    · subst hb; rfl
    · simp [parse_jpeg, badHeader, index, hb]

/-! ## The link: `Drain` and `Send` -/

/-- The loop of `Drain` ends with nothing pending on the port and touches nothing else;
its reads before the last one yield bytes, all the pending ones together, and its last
read is the only one that yields none. -/
theorem drainLoop_eq : ∀ (fuel : Nat) (l : Link), l.port.length < fuel →
    ∃ counts, drainLoop fuel l = Outcome.ok (counts ++ [0], { l with port := [] })
      ∧ (∀ n ∈ counts, 0 < n) ∧ counts.sum = l.port.length := by
  intro fuel
  induction fuel with
  | zero => intro l h; omega
  | succ f ih =>
    intro l h
    simp only [drainLoop, portRead]
    by_cases hp : l.port = []
    · exact ⟨[], by simp [hp], by simp, by simp [hp]⟩
    · have hlen : 0 < l.port.length := List.length_pos.mpr hp
      have h0 : (List.take 128 l.port).length ≠ 0 := by
        simp only [List.length_take]; omega
      rw [if_neg h0]
      obtain ⟨counts, k1, k2, k3⟩ := ih { l with port := l.port.drop 128 }
        (by simp only [List.length_drop]; omega)
      refine ⟨(List.take 128 l.port).length :: counts, ?_, ?_, ?_⟩
      · rw [k1]; rfl
      · intro n hn
        rcases List.mem_cons.mp hn with hn | hn
        · omega
        · exact k2 n hn
      · simp only [List.sum_cons, k3, List.length_take, List.length_drop]
        omega

theorem Drain_eq (l : Link) :
    ∃ counts, Drain l = Outcome.ok (counts ++ [0], { l with port := [] })
      ∧ (∀ n ∈ counts, 0 < n) ∧ counts.sum = l.port.length :=
  drainLoop_eq _ _ (Nat.lt_succ_self _)

/-- `Send` leaves the buffer of `reader` as it was: it empties the port, appends the
message to what was written, and the answer of the device is pending. -/
theorem Send_eq (dev : Device) (l : Link) (msg : List Byte) :
    Send dev l msg = Outcome.ok
      { port := dev (l.sent ++ [msg]), rbuf := l.rbuf, sent := l.sent ++ [msg] } := by
  obtain ⟨counts, h, _, _⟩ := Drain_eq l
  simp [Send, h, portWrite]

/-! ## The link: `Read` -/

/-- Where the first occurrence of `c` in `pre ++ c :: post` is. -/
theorem indexOf_first (c : Byte) {pre post : List Byte} (hpre : c ∉ pre) :
    (pre ++ c :: post).indexOf c = pre.length := by
  rw [List.indexOf_append_of_not_mem hpre, List.indexOf_cons_self]
  rfl

/-- `readString` when a line feed is available: the first line comes back with a nil
error, and what follows it stays in the link. -/
theorem readString_line : ∀ (fuel : Nat) (acc : List Byte) (l : Link) (pre post : List Byte),
    2 * l.port.length + (if readerSize ≤ l.rbuf.length then 1 else 0) + 1 ≤ fuel →
    l.rbuf ++ l.port = pre ++ LF :: post → LF ∉ pre →
    ∃ l1, readString fuel acc l = Outcome.ok (acc ++ pre ++ [LF], false, l1)
      ∧ l1.rbuf ++ l1.port = post ∧ l1.sent = l.sent := by
  intro fuel
  induction fuel with
  | zero => intro acc l pre post h; omega
  | succ f ih =>
    intro acc l pre post hf hsplit hpre
    simp only [readString]
    by_cases hin : LF ∈ l.rbuf
    · rw [if_pos hin]
      have hi : l.rbuf.indexOf LF = pre.length := by
        rw [← List.indexOf_append_of_mem hin, hsplit, indexOf_first LF hpre]
      have hlt : pre.length < l.rbuf.length := by
        rw [← hi]; exact List.indexOf_lt_length.mpr hin
      have ht : l.rbuf.take (pre.length + 1) = pre ++ [LF] := by
        have h1 : (l.rbuf ++ l.port).take (pre.length + 1) = l.rbuf.take (pre.length + 1) :=
          List.take_append_of_le_length (by omega)
        rw [← h1, hsplit]
        have h2 : pre ++ LF :: post = (pre ++ [LF]) ++ post := by simp
        rw [h2, List.take_left' (by simp)]
      have hd : l.rbuf.drop (pre.length + 1) ++ l.port = post := by
        have h1 : (l.rbuf ++ l.port).drop (pre.length + 1)
            = l.rbuf.drop (pre.length + 1) ++ l.port :=
          List.drop_append_of_le_length (by omega)
        rw [← h1, hsplit]
        have h2 : pre ++ LF :: post = (pre ++ [LF]) ++ post := by simp
        rw [h2, List.drop_left' (by simp)]
      refine ⟨{ l with rbuf := l.rbuf.drop (l.rbuf.indexOf LF + 1) }, ?_, ?_, rfl⟩
      · simp only [Outcome.pure_eq, hi, ht, List.append_assoc]
      · simp only [hi]; exact hd
    · rw [if_neg hin]
      by_cases hfull : readerSize ≤ l.rbuf.length
      · rw [if_pos hfull]
        rw [if_pos hfull] at hf
        obtain ⟨mid, hmid⟩ : ∃ mid, pre = l.rbuf ++ mid := by
          have hle : l.rbuf.length ≤ pre.length := by
            by_contra hc
            have hc : pre.length < l.rbuf.length := by omega
            have h1 : (l.rbuf ++ l.port)[pre.length]? = some LF := by
              rw [hsplit, List.getElem?_append_right (le_refl _)]; simp
            rw [List.getElem?_append_left hc] at h1
            exact hin (List.getElem?_mem h1)
          refine ⟨pre.drop l.rbuf.length, ?_⟩
          have h1 : (l.rbuf ++ l.port).take l.rbuf.length = l.rbuf := List.take_left _ _
          rw [hsplit, List.take_append_of_le_length hle] at h1
          conv_lhs => rw [← List.take_append_drop l.rbuf.length pre, h1]
        subst hmid
        have hport : l.port = mid ++ LF :: post := by
          rw [List.append_assoc] at hsplit
          exact List.append_cancel_left hsplit
        have hmidLF : LF ∉ mid := fun hm => hpre (List.mem_append_right _ hm)
        obtain ⟨l1, h1, h2, h3⟩ := ih (acc ++ l.rbuf) { l with rbuf := [] } mid post
          (by simp only [List.length_nil]; rw [if_neg (by decide)]; omega) (by simpa using hport) hmidLF
        exact ⟨l1, by rw [h1]; simp, h2, h3⟩
      · rw [if_neg hfull]
        rw [if_neg hfull] at hf
        simp only [portRead]
        have hport : l.port ≠ [] := by
          intro hp
          rw [hp, List.append_nil] at hsplit
          exact hin (by rw [hsplit]; simp)
        have hlen : 0 < l.port.length := List.length_pos.mpr hport
        have h0 : (List.take (readerSize - l.rbuf.length) l.port).length ≠ 0 := by
          simp only [List.length_take]; omega
        rw [if_neg h0]
        obtain ⟨l1, h1, h2, h3⟩ := ih acc
          { port := l.port.drop (readerSize - l.rbuf.length),
            rbuf := l.rbuf ++ l.port.take (readerSize - l.rbuf.length), sent := l.sent }
          pre post
          (by simp only [List.length_drop]; split_ifs <;> omega)
          (by simp only [List.append_assoc, List.take_append_drop]; exact hsplit) hpre
        exact ⟨l1, h1, h2, h3⟩

/-- `readString` when no line feed is available: everything that is buffered or pending
comes back with a non-nil error, and nothing is left in the link. -/
theorem readString_timeout : ∀ (fuel : Nat) (acc : List Byte) (l : Link),
    2 * l.port.length + (if readerSize ≤ l.rbuf.length then 1 else 0) + 1 ≤ fuel →
    LF ∉ l.rbuf ++ l.port →
    readString fuel acc l
      = Outcome.ok (acc ++ (l.rbuf ++ l.port), true, { l with rbuf := [], port := [] }) := by
  intro fuel
  induction fuel with
  | zero => intro acc l h; omega
  | succ f ih =>
    intro acc l hf hno
    have hin : LF ∉ l.rbuf := fun h => hno (List.mem_append_left _ h)
    simp only [readString]
    rw [if_neg hin]
    by_cases hfull : readerSize ≤ l.rbuf.length
    · rw [if_pos hfull]
      rw [if_pos hfull] at hf
      rw [ih (acc ++ l.rbuf) { l with rbuf := [] }
        (by simp only [List.length_nil]; rw [if_neg (by decide)]; omega)
        (fun h => hno (List.mem_append_right _ (by simpa using h)))]
      simp
    · rw [if_neg hfull]
      rw [if_neg hfull] at hf
      simp only [portRead]
      by_cases hp : l.port = []
      · simp [hp]
      · have hlen : 0 < l.port.length := List.length_pos.mpr hp
        have h0 : (List.take (readerSize - l.rbuf.length) l.port).length ≠ 0 := by
          simp only [List.length_take]; omega
        rw [if_neg h0]
        rw [ih acc
          { port := l.port.drop (readerSize - l.rbuf.length),
            rbuf := l.rbuf ++ l.port.take (readerSize - l.rbuf.length), sent := l.sent }
          (by simp only [List.length_drop]; split_ifs <;> omega)
          (by simp only [List.append_assoc, List.take_append_drop]; exact hno)]
        simp

theorem Read_line {l : Link} {pre post : List Byte}
    (hsplit : l.rbuf ++ l.port = pre ++ LF :: post) (hpre : LF ∉ pre) :
    ∃ l1, Read l = Outcome.ok (trimRight (pre ++ [LF]), false, l1)
      ∧ l1.rbuf ++ l1.port = post ∧ l1.sent = l.sent := by
  obtain ⟨l1, h1, h2, h3⟩ := readString_line (2 * l.port.length + 3) [] l pre post
    (by split_ifs <;> omega) hsplit hpre
  exact ⟨l1, by simp [Read, h1], h2, h3⟩

theorem Read_timeout {l : Link} (hno : LF ∉ l.rbuf ++ l.port) :
    Read l = Outcome.ok (trimRight (l.rbuf ++ l.port), true, { l with rbuf := [], port := [] }) := by
  have h1 := readString_timeout (2 * l.port.length + 3) [] l (by split_ifs <;> omega) hno
  simp [Read, h1]

/-- A byte sequence that holds a line feed splits at its first line feed. -/
theorem exists_first_LF (s : List Byte) (h : LF ∈ s) :
    ∃ pre post, s = pre ++ LF :: post ∧ LF ∉ pre := by
  induction s with
  | nil => simp at h
  | cons b s ih =>
    by_cases hb : b = LF
    · exact ⟨[], s, by simp [hb], by simp⟩
    · have hs : LF ∈ s := by
        rcases List.mem_cons.mp h with h | h
        · exact absurd h.symm hb
        · exact h
      obtain ⟨pre, post, he, hp⟩ := ih hs
      refine ⟨b :: pre, post, by simp [he], ?_⟩
      intro hm
      rcases List.mem_cons.mp hm with hm | hm
      · exact hb hm.symm
      · exact hp hm

/-- `Read` returns, and leaves what was written as it is. -/
theorem Read_ok (l : Link) :
    ∃ x err l1, Read l = Outcome.ok (x, err, l1) ∧ l1.sent = l.sent := by
  by_cases h : LF ∈ l.rbuf ++ l.port
  · obtain ⟨pre, post, hs, hp⟩ := exists_first_LF _ h
    obtain ⟨l1, h1, _, h3⟩ := Read_line hs hp
    exact ⟨_, _, l1, h1, h3⟩
  · exact ⟨_, _, _, Read_timeout h, rfl⟩

/-! ## The link: `Sync` -/

theorem linesFrom_line (pre post : List Byte) (hpre : LF ∉ pre) : ∀ cur : List Byte,
    linesFrom cur (pre ++ LF :: post) = trimRight (cur ++ pre ++ [LF]) :: linesFrom [] post := by
  induction pre with
  | nil => intro cur; simp [linesFrom]
  | cons b pre ih =>
    intro cur
    have hb : b ≠ LF := fun h => hpre (by simp [h])
    have hp : LF ∉ pre := fun h => hpre (List.mem_cons_of_mem _ h)
    have e : linesFrom cur (b :: pre ++ LF :: post)
        = linesFrom (cur ++ [b]) (pre ++ LF :: post) := by
      simp only [List.cons_append, linesFrom, if_neg hb]
      rfl
    rw [e, ih hp]
    simp

theorem linesFrom_rest (s : List Byte) (hs : LF ∉ s) : ∀ cur : List Byte,
    linesFrom cur s = [trimRight (cur ++ s)] := by
  induction s with
  | nil => intro cur; simp [linesFrom]
  | cons b s ih =>
    intro cur
    have hb : b ≠ LF := fun h => hs (by simp [h])
    have hp : LF ∉ s := fun h => hs (List.mem_cons_of_mem _ h)
    have e : linesFrom cur (b :: s) = linesFrom (cur ++ [b]) s := by
      simp only [linesFrom, if_neg hb]
    rw [e, ih hp]
    simp

/-- The inner loop of `Sync`: it reports a connection exactly when one of the lines that
are buffered or pending ends in the acknowledgment; when none does it has read them all. -/
theorem syncRead_spec (ack : List Byte) : ∀ (fuel : Nat) (l : Link),
    (l.rbuf ++ l.port).length < fuel →
    ∃ l1, syncRead ack fuel l
        = Outcome.ok ((readLines (l.rbuf ++ l.port)).any (fun x => HasSuffix x ack), l1)
      ∧ l1.sent = l.sent
      ∧ ((readLines (l.rbuf ++ l.port)).any (fun x => HasSuffix x ack) = false →
          l1.rbuf = [] ∧ l1.port = []) := by
  intro fuel
  induction fuel with
  | zero => intro l h; omega
  | succ f ih =>
    intro l hf
    simp only [syncRead]
    by_cases h : LF ∈ l.rbuf ++ l.port
    · obtain ⟨pre, post, hs, hp⟩ := exists_first_LF _ h
      obtain ⟨l1, h1, h2, h3⟩ := Read_line hs hp
      have hlines : readLines (l.rbuf ++ l.port)
          = trimRight (pre ++ [LF]) :: readLines post := by
        rw [hs]
        simpa [readLines] using linesFrom_line pre post hp []
      rw [h1, hlines]
      simp only [Outcome.ok_bind, List.any_cons]
      by_cases hx : HasSuffix (trimRight (pre ++ [LF])) ack = true
      · refine ⟨l1, by simp [hx], h3, ?_⟩
        simp [hx]
      · have hx0 : HasSuffix (trimRight (pre ++ [LF])) ack = false := by
          simpa using hx
        have hlen : (l1.rbuf ++ l1.port).length < f := by
          have := congrArg List.length hs
          rw [h2]
          simp only [List.length_append, List.length_cons] at this hf ⊢
          omega
        obtain ⟨l2, k1, k2, k3⟩ := ih l1 hlen
        rw [h2] at k1 k3
        refine ⟨l2, ?_, by rw [k2, h3], ?_⟩
        · simp [hx0, k1]
        · simpa [hx0] using k3
    · rw [Read_timeout h]
      have hlines : readLines (l.rbuf ++ l.port) = [trimRight (l.rbuf ++ l.port)] := by
        simpa [readLines] using linesFrom_rest _ h []
      rw [hlines]
      refine ⟨{ l with rbuf := [], port := [] }, ?_, rfl, fun _ => ⟨rfl, rfl⟩⟩
      simp

theorem pingsFrom_succ (rnd : Nat → Nat) (n k : Nat) :
    pingsFrom rnd n (k + 1) = pingMsg (rnd n) :: pingsFrom rnd (n + 1) k := by
  simp only [pingsFrom, List.range_succ_eq_map, List.map_cons, List.map_map, Nat.add_zero]
  congr 1
  apply List.map_congr_left
  intro i _
  simp only [Function.comp, Nat.succ_eq_add_one]
  congr 2
  omega

theorem pingsFrom_one (rnd : Nat → Nat) (n : Nat) : pingsFrom rnd n 1 = [pingMsg (rnd n)] := by
  rw [pingsFrom_succ]
  rfl

theorem ackedFrom_shift (dev : Device) (rnd : Nat → Nat) (sent0 : List (List Byte))
    (n j : Nat) :
    ackedFrom dev rnd (sent0 ++ [pingMsg (rnd n)]) (n + 1) j
      = ackedFrom dev rnd sent0 n (j + 1) := by
  have e : n + 1 + j = n + (j + 1) := by omega
  simp only [ackedFrom, pingsFrom_succ rnd n (j + 1), e, List.append_assoc,
    List.singleton_append]

/-- The outer loop of `Sync`, started on a link whose reader holds nothing: it stops at the
first attempt whose answer holds the acknowledgment and has then written the pings up to
that attempt, or goes through all its attempts and has written all their pings. -/
theorem syncLoop_spec (dev : Device) (rnd : Nat → Nat) : ∀ (k n : Nat) (l : Link) (m : Nat),
    l.rbuf = [] → m ≤ k →
    (∀ j, j < m → ackedFrom dev rnd l.sent n j = false) →
    (m < k → ackedFrom dev rnd l.sent n m = true) →
    ∃ l1, syncLoop dev rnd k n l = Outcome.ok (decide (m < k), l1)
      ∧ l1.sent = l.sent ++ pingsFrom rnd n (min (m + 1) k) := by
  intro k
  induction k with
  | zero =>
    intro n l m _ hm _ _
    refine ⟨l, ?_, ?_⟩
    · simp [syncLoop]
    · simp [pingsFrom]
  | succ k ih =>
    intro n l m hl hm hmiss hack
    simp only [syncLoop, Send_eq, Outcome.ok_bind]
    obtain ⟨l1, h1, h2, h3⟩ := syncRead_spec (str "PINGACK:" ++ Itoa (rnd n) ++ str ":")
      (([] : List Byte).length + (dev (l.sent ++ [str ":ping:" ++ Itoa (rnd n) ++ str ":"])).length
        + 1)
      { port := dev (l.sent ++ [str ":ping:" ++ Itoa (rnd n) ++ str ":"]), rbuf := [],
        sent := l.sent ++ [str ":ping:" ++ Itoa (rnd n) ++ str ":"] }
      (by simp)
    have h0 : (readLines (([] : List Byte)
          ++ dev (l.sent ++ [str ":ping:" ++ Itoa (rnd n) ++ str ":"]))).any
          (fun x => HasSuffix x (str "PINGACK:" ++ Itoa (rnd n) ++ str ":"))
        = ackedFrom dev rnd l.sent n 0 := by
      simp only [ackedFrom, pingsFrom_one, List.nil_append, Nat.add_zero]
      rfl
    rw [h0] at h1 h3
    simp only [hl]
    rw [h1]
    simp only [Outcome.ok_bind]
    cases m with
    | zero =>
      have ha := hack (by omega)
      refine ⟨l1, ?_, ?_⟩
      · simp [ha]
      · have e : min (0 + 1) (k + 1) = 1 := by omega
        rw [h2, e, pingsFrom_one]
        rfl
    | succ m =>
      have ha := hmiss 0 (by omega)
      obtain ⟨hr, _⟩ := h3 ha
      have hs : l1.sent = l.sent ++ [pingMsg (rnd n)] := h2
      obtain ⟨l2, k1, k2⟩ := ih (n + 1) l1 m hr (by omega)
        (by
          intro j hj
          rw [hs, ackedFrom_shift]
          exact hmiss (j + 1) (by omega))
        (by
          intro hj
          rw [hs, ackedFrom_shift]
          exact hack (by omega))
      refine ⟨l2, ?_, ?_⟩
      · simp only [ha, Bool.false_eq_true, if_false, k1]
        congr 2
        simp
      · rw [k2, hs]
        have e : min (m + 1 + 1) (k + 1) = min (m + 1) k + 1 := by omega
        rw [e, pingsFrom_succ]
        simp

theorem ackedFrom_one (dev : Device) (rnd : Nat → Nat) (sent0 : List (List Byte)) (j : Nat) :
    ackedFrom dev rnd sent0 1 j = acked dev rnd sent0 (j + 1) := by
  simp only [ackedFrom, acked, pings, Nat.add_comm 1 j]

/-- `Sync` after the first acknowledged attempt `m + 1`, or after five attempts without
an acknowledgment (`m = 5`). -/
theorem Sync_spec (dev : Device) (rnd : Nat → Nat) (l : Link) (m : Nat)
    (hl : l.rbuf = []) (hm : m ≤ 5)
    (hmiss : ∀ j, j < m → acked dev rnd l.sent (j + 1) = false)
    (hack : m < 5 → acked dev rnd l.sent (m + 1) = true) :
    ∃ l1, Sync dev rnd l
        = Outcome.ok (if m < 5 then str "Connected to safe" else str "Failed to connect to safe",
            decide (m < 5), l1)
      ∧ l1.sent = l.sent ++ pings rnd (min (m + 1) 5) := by
  obtain ⟨l1, h1, h2⟩ := syncLoop_spec dev rnd 5 1 l m hl hm
    (fun j hj => by rw [ackedFrom_one]; exact hmiss j hj)
    (fun hj => by rw [ackedFrom_one]; exact hack hj)
  refine ⟨l1, ?_, h2⟩
  simp only [Sync, h1, Outcome.ok_bind]
  by_cases h : m < 5 <;> simp [h]

/-- The outer loop of `Sync` returns on every link. -/
theorem syncLoop_ok (dev : Device) (rnd : Nat → Nat) : ∀ (k n : Nat) (l : Link),
    ∃ b l1, syncLoop dev rnd k n l = Outcome.ok (b, l1) := by
  intro k
  induction k with
  | zero => intro n l; exact ⟨false, l, rfl⟩
  | succ k ih =>
    intro n l
    simp only [syncLoop, Send_eq, Outcome.ok_bind]
    obtain ⟨l1, h1, _, _⟩ := syncRead_spec (str "PINGACK:" ++ Itoa (rnd n) ++ str ":")
      (l.rbuf.length + (dev (l.sent ++ [str ":ping:" ++ Itoa (rnd n) ++ str ":"])).length + 1)
      { port := dev (l.sent ++ [str ":ping:" ++ Itoa (rnd n) ++ str ":"]), rbuf := l.rbuf,
        sent := l.sent ++ [str ":ping:" ++ Itoa (rnd n) ++ str ":"] }
      (by simp)
    rw [h1]
    simp only [Outcome.ok_bind]
    split_ifs
    · exact ⟨true, l1, rfl⟩
    · exact ih (n + 1) l1

/-- `Sync` returns on every link. -/
theorem Sync_ok (dev : Device) (rnd : Nat → Nat) (l : Link) :
    ∃ msg b l1, Sync dev rnd l = Outcome.ok (msg, b, l1) := by
  obtain ⟨b, l1, h⟩ := syncLoop_ok dev rnd 5 1 l
  simp only [Sync, h, Outcome.ok_bind]
  cases b
  · exact ⟨_, _, _, rfl⟩
  · exact ⟨_, _, _, rfl⟩

/-! ## Decimal rendering -/

/-- A decimal digit is none of the bytes of the frame around a nonce. -/
theorem itoaRev_digits : ∀ (fuel n : Nat) (b : Byte), b ∈ itoaRev fuel n →
    48 ≤ b.val ∧ b.val ≤ 57 := by
  intro fuel
  induction fuel with
  | zero => intro n b h; simp [itoaRev] at h
  | succ f ih =>
    intro n b h
    simp only [itoaRev, List.mem_cons] at h
    rcases h with h | h
    · subst h
      simp only [byte_val]
      omega
    · split_ifs at h
      · simp at h
      · exact ih _ _ h

theorem Itoa_digits (n : Nat) (b : Byte) (h : b ∈ Itoa n) : 48 ≤ b.val ∧ b.val ≤ 57 :=
  itoaRev_digits _ _ _ (List.mem_reverse.mp h)

theorem valueRev_itoaRev : ∀ (fuel n : Nat), n < fuel → valueRev (itoaRev fuel n) = n := by
  intro fuel
  induction fuel with
  | zero => intro n h; omega
  | succ f ih =>
    intro n h
    simp only [itoaRev, valueRev, byte_val]
    split_ifs with h0
    · simp only [valueRev]
      omega
    · have hlt : n / 10 < f := by omega
      rw [ih _ hlt]
      omega

/-- `strconv.Itoa` renders different numbers differently. -/
theorem Itoa_injective {a b : Nat} (h : Itoa a = Itoa b) : a = b := by
  have h1 : itoaRev (a + 1) a = itoaRev (b + 1) b := by
    simpa [Itoa] using h
  have h2 := congrArg valueRev h1
  rwa [valueRev_itoaRev _ _ (Nat.lt_succ_self _), valueRev_itoaRev _ _ (Nat.lt_succ_self _)] at h2

/-! ## The acknowledgment test -/

/-- Two frames `c :: T` around byte strings free of `c`: when one framed string begins
the other, the two strings are the same. -/
theorem framed_eq (c : Byte) (T D1 D2 : List Byte) (h1 : c ∉ D1) (h2 : c ∉ D2)
    (hp : D1 ++ c :: T <+: D2 ++ c :: T) : D1 = D2 := by
  obtain ⟨Y, hY⟩ := hp
  have hi1 : (D1 ++ c :: T ++ Y).indexOf c = D1.length := by
    rw [List.append_assoc, List.cons_append]
    exact indexOf_first c h1
  have hi2 : (D2 ++ c :: T).indexOf c = D2.length := indexOf_first c h2
  rw [hY, hi2] at hi1
  have t1 : (D1 ++ c :: T ++ Y).take D1.length = D1 := by
    rw [List.append_assoc]
    exact List.take_left _ _
  have t2 : (D2 ++ c :: T).take D2.length = D2 := List.take_left _ _
  rw [hY, ← hi1, t2] at t1
  exact t1.symm

/-- A line that ends in the acknowledgment of one nonce ends in the acknowledgment of
another nonce only if the two renderings are the same. -/
theorem ack_suffix_eq (D1 D2 pre : List Byte) (h1 : (58 : Byte) ∉ D1) (h2 : (58 : Byte) ∉ D2)
    (hs : str "PINGACK:" ++ D1 ++ str ":" <:+ pre ++ (str "PINGACK:" ++ D2 ++ str ":")) :
    D1 = D2 := by
  have hB : str "PINGACK:" ++ D2 ++ str ":" <:+ pre ++ (str "PINGACK:" ++ D2 ++ str ":") :=
    List.suffix_append _ _
  have hrev : ∀ D : List Byte, (str "PINGACK:" ++ D ++ str ":").reverse
      = (58 : Byte) :: (D.reverse ++ (58 : Byte) :: (str "PINGACK").reverse) := by
    intro D
    have e1 : str ":" = [(58 : Byte)] := by decide
    have e2 : str "PINGACK:" = str "PINGACK" ++ [(58 : Byte)] := by decide
    rw [e1, e2]
    simp
  have hm1 : (58 : Byte) ∉ D1.reverse := fun h => h1 (List.mem_reverse.mp h)
  have hm2 : (58 : Byte) ∉ D2.reverse := fun h => h2 (List.mem_reverse.mp h)
  rcases List.suffix_or_suffix_of_suffix hs hB with h | h
  · have h3 := List.reverse_prefix.mpr h
    rw [hrev, hrev, List.cons_prefix_cons] at h3
    exact List.reverse_injective (framed_eq 58 _ _ _ hm1 hm2 h3.2)
  · have h3 := List.reverse_prefix.mpr h
    rw [hrev, hrev, List.cons_prefix_cons] at h3
    exact (List.reverse_injective (framed_eq 58 _ _ _ hm2 hm1 h3.2)).symm

theorem Itoa_no_colon (n : Nat) : (58 : Byte) ∉ Itoa n := by
  intro h
  obtain ⟨_, h2⟩ := Itoa_digits n 58 h
  exact absurd h2 (by decide)

/-! ## The claims about the codec -/

/-- C1 (round trip), at the boundary of the data model: the record `tenTables` satisfies
the invariants (ten quantization tables, payloads of one byte), `write_jpeg` emits it, and
`parse_jpeg` applied to these bytes returns the error "Too many DQT segments" instead of
the record. -/
theorem roundtrip_fails_ten_tables :
    tenTables.wellFormed 10
      ∧ parse_jpeg (write_jpeg tenTables) [] = Outcome.error ParseError.tooManyDQT := by
  refine ⟨⟨by decide, by decide, by decide, by decide, by decide, ?_, ?_⟩, by decide⟩
  · intro t ht
    rw [List.eq_of_mem_replicate ht]
    decide
  · intro t ht
    cases ht

/-- C2 (bad header or footer), evaluated: streams whose first two bytes are `FF 00` or
`00 D8`, and streams whose last two bytes are `FF 00` or `00 D9`, are decoded without an
error, because each test fails only when both of its bytes differ. -/
theorem parse_accepts_half_markers :
    parse_jpeg [0xff, 0x00, 0xff, 0xda, 0x00, 0x02, 0xff, 0xd9] [] = Outcome.ok JPEG.zero
      ∧ parse_jpeg [0x00, 0xd8, 0xff, 0xda, 0x00, 0x02, 0xff, 0xd9] [] = Outcome.ok JPEG.zero
      ∧ parse_jpeg [0xff, 0xd8, 0xff, 0xda, 0x00, 0x02, 0xff, 0x00] [] = Outcome.ok JPEG.zero
      ∧ parse_jpeg [0xff, 0xd8, 0xff, 0xda, 0x00, 0x02, 0x00, 0xd9] [] = Outcome.ok JPEG.zero := by
  decide

/-- C3 (table cap), evaluated: a stream with nine table segments of one kind is decoded
and keeps the nine tables, and a stream with exactly ten quantization-table segments, or
exactly ten huffman-table segments, already fails with the too-many-segments error. -/
theorem parse_rejects_tenth_table :
    parse_jpeg (tableStream 0xdb 9) []
        = Outcome.ok { JPEG.zero with dqt := List.replicate 9 [0x01] }
      ∧ parse_jpeg (tableStream 0xc4 9) []
        = Outcome.ok { JPEG.zero with dht := List.replicate 9 [0x01] }
      ∧ parse_jpeg (tableStream 0xdb 10) [] = Outcome.error ParseError.tooManyDQT
      ∧ parse_jpeg (tableStream 0xc4 10) [] = Outcome.error ParseError.tooManyDHT := by
  decide

/-- C4 (files this system produced are reproduced): when `parse_jpeg` decoded some stream
into `r` and the comment `c` has at most 65533 bytes, the bytes `write_jpeg` emits for `r`
with the comment `c` are decoded again, and `write_jpeg` of the result emits the same
bytes. -/
theorem reencode_reproduces (b spare spare1 c : List Byte) (r : JPEG)
    (hb : parse_jpeg b spare = Outcome.ok r) (hc : c.length ≤ 65533) :
    ∃ r1, parse_jpeg (write_jpeg { r with comment := c }) spare1 = Outcome.ok r1
      ∧ write_jpeg r1 = write_jpeg { r with comment := c } := by
  obtain ⟨hq, hh, _, hf, hs, hqt, hht⟩ := parse_jpeg_wellFormed hb
  exact ⟨{ r with comment := c }, parse_write _ _ ⟨hq, hh, hc, hf, hs, hqt, hht⟩, rfl⟩

/-- C4 at a concrete input: the minimal stream, re-encoded with a password comment. -/
theorem reencode_reproduces_witness :
    parse_jpeg minimalStream [] = Outcome.ok JPEG.zero
      ∧ (str "LOCKPSW:abc").length ≤ 65533
      ∧ ∃ r1, parse_jpeg (write_jpeg { JPEG.zero with comment := str "LOCKPSW:abc" }) []
            = Outcome.ok r1
          ∧ write_jpeg r1 = write_jpeg { JPEG.zero with comment := str "LOCKPSW:abc" } :=
  ⟨by decide, by decide,
    reencode_reproduces minimalStream [] [] (str "LOCKPSW:abc") JPEG.zero (by decide)
      (by decide)⟩

/-- C10 (decoding is total), refuted at concrete inputs: on the empty input, on a one-byte
input, on the two markers alone (no scan header), on a segment whose length field is 1 and
on a segment cut short by the end of the input, `parse_jpeg` stops in a run-time panic
(index or slice bounds out of range) and returns neither a record nor an error. -/
theorem parse_panics_on_short_input :
    parse_jpeg [] [] = Outcome.crash
      ∧ parse_jpeg [0xff] [] = Outcome.crash
      ∧ parse_jpeg [0xff, 0xd8, 0xff, 0xd9] [] = Outcome.crash
      ∧ parse_jpeg [0xff, 0xd8, 0xff, 0xfe, 0x00, 0x01, 0xff, 0xd9] [] = Outcome.crash
      ∧ parse_jpeg [0xff, 0xd8, 0xff, 0xfe, 0x00, 0x10, 0x41, 0xff, 0xd9] [] = Outcome.crash := by
  decide

/-- C10 as the code has it: on every byte sequence `parse_jpeg` terminates, and it returns
a record, returns one of its format errors, or stops in a run-time panic; a record it
returns was read from inside the input alone (it is the same whatever the backing array
holds behind `len(img)`); an input of fewer than two bytes always ends in a panic; and on
a framed stream (any two bytes, complete segments with payloads of at most 65533 bytes, a
complete scan-header segment, scan data, any two bytes) it never panics and never reads
or slices outside the input: the result is the same as with nothing behind the input, and
it is a record or one of the errors bad header, bad footer, too many DQT segments, too
many DHT segments. -/
theorem parse_total_on_framed (img spare spare1 : List Byte) :
    ((∃ r, parse_jpeg img spare = Outcome.ok r) ∨ (∃ e, parse_jpeg img spare = Outcome.error e)
        ∨ parse_jpeg img spare = Outcome.crash)
      ∧ (∀ r, parse_jpeg img spare = Outcome.ok r → parse_jpeg img spare1 = Outcome.ok r)
      ∧ (img.length < 2 → parse_jpeg img spare = Outcome.crash)
      ∧ (∀ (head sos data foot : List Byte) (segs : List (Byte × List Byte)),
          img = framedStream head segs sos data foot →
          head.length = 2 → foot.length = 2 →
          (∀ s ∈ segs, s.2.length ≤ 65533) → sos.length ≤ 65533 →
          parse_jpeg img spare = parse_jpeg img []
            ∧ ((∃ r, parse_jpeg img spare = Outcome.ok r)
              ∨ parse_jpeg img spare = Outcome.error ParseError.badHeader
              ∨ parse_jpeg img spare = Outcome.error ParseError.badFooter
              ∨ parse_jpeg img spare = Outcome.error ParseError.tooManyDQT
              ∨ parse_jpeg img spare = Outcome.error ParseError.tooManyDHT)) := by
  refine ⟨?_, ?_, ?_, ?_⟩
  · have hf := parse_jpeg_fuel img spare
    cases h : parse_jpeg img spare with
    | ok r => exact Or.inl ⟨r, rfl⟩
    | error e => exact Or.inr (Or.inl ⟨e, rfl⟩)
    | crash => exact Or.inr (Or.inr rfl)
    | outOfFuel => exact absurd h hf
  · intro r h
    exact parse_jpeg_inside spare1 h
  · intro h
    exact parse_jpeg_short img spare h
  · intro head sos data foot segs himg hhead hfoot hsegs hsos
    obtain ⟨res, hall, hshape⟩ := parse_framed head sos data foot segs hhead hfoot hsegs hsos
    rw [himg, hall spare, hall []]
    exact ⟨rfl, hshape⟩

/-- C10 at concrete inputs: the minimal stream is framed (no segment before the empty scan
header, no scan data) and is decoded the same with and without bytes behind it; the empty
input has fewer than two bytes. -/
theorem parse_total_on_framed_witness :
    (parse_jpeg minimalStream [0x01, 0x02] = parse_jpeg minimalStream []
        ∧ ((∃ r, parse_jpeg minimalStream [0x01, 0x02] = Outcome.ok r)
          ∨ parse_jpeg minimalStream [0x01, 0x02] = Outcome.error ParseError.badHeader
          ∨ parse_jpeg minimalStream [0x01, 0x02] = Outcome.error ParseError.badFooter
          ∨ parse_jpeg minimalStream [0x01, 0x02] = Outcome.error ParseError.tooManyDQT
          ∨ parse_jpeg minimalStream [0x01, 0x02] = Outcome.error ParseError.tooManyDHT))
      ∧ parse_jpeg [] [0x01, 0x02] = Outcome.crash :=
  ⟨(parse_total_on_framed minimalStream [0x01, 0x02] []).2.2.2 [0xff, 0xd8] [] [] [0xff, 0xd9] []
      (by decide) (by decide) (by decide) (fun s hs => by cases hs) (by decide),
    (parse_total_on_framed [] [0x01, 0x02] []).2.2.1 (by decide)⟩

/-! ## The claims about the link -/

/-- C5 (handshake outcome): on a link whose reader holds nothing, as when `main` calls
`Sync`, if the device answers none of the pings 1 to N-1 with a line that ends in the
acknowledgment of that ping and answers ping N (1 ≤ N ≤ 5) with one that does, `Sync`
writes exactly the pings 1 to N and returns ("Connected to safe", true); and if it answers
none of the five pings so, `Sync` writes exactly five pings and returns
("Failed to connect to safe", false). -/
theorem sync_handshake (dev : Device) (rnd : Nat → Nat) (l : Link) (hl : l.rbuf = []) :
    (∀ N, 1 ≤ N → N ≤ 5 →
        (∀ k, 1 ≤ k → k < N → acked dev rnd l.sent k = false) →
        acked dev rnd l.sent N = true →
        ∃ l1, Sync dev rnd l = Outcome.ok (str "Connected to safe", true, l1)
          ∧ l1.sent = l.sent ++ pings rnd N)
      ∧ ((∀ k, 1 ≤ k → k ≤ 5 → acked dev rnd l.sent k = false) →
        ∃ l1, Sync dev rnd l = Outcome.ok (str "Failed to connect to safe", false, l1)
          ∧ l1.sent = l.sent ++ pings rnd 5) := by
  constructor
  · intro N h1 h5 hmiss hack
    obtain ⟨l1, k1, k2⟩ := Sync_spec dev rnd l (N - 1) hl (by omega)
      (fun j hj => hmiss (j + 1) (by omega) (by omega))
      (fun _ => by
        have e : N - 1 + 1 = N := by omega
        rw [e]; exact hack)
    have e : min (N - 1 + 1) 5 = N := by omega
    have hlt : N - 1 < 5 := by omega
    rw [e] at k2
    rw [if_pos hlt, decide_eq_true hlt] at k1
    exact ⟨l1, k1, k2⟩
  · intro hmiss
    obtain ⟨l1, k1, k2⟩ := Sync_spec dev rnd l 5 hl (le_refl _)
      (fun j hj => hmiss (j + 1) (by omega) (by omega))
      (fun h => absurd h (by decide))
    exact ⟨l1, k1, k2⟩

/-- C5 at concrete inputs: a device that acknowledges from the second ping on, and a
device that never answers, on a freshly opened link. -/
theorem sync_handshake_witness :
    openedLink.rbuf = []
      ∧ (∃ l1, Sync lateDevice countingRnd openedLink
            = Outcome.ok (str "Connected to safe", true, l1)
          ∧ l1.sent = openedLink.sent ++ pings countingRnd 2)
      ∧ (∃ l1, Sync silent countingRnd openedLink
            = Outcome.ok (str "Failed to connect to safe", false, l1)
          ∧ l1.sent = openedLink.sent ++ pings countingRnd 5) :=
  ⟨rfl,
    (sync_handshake lateDevice countingRnd openedLink rfl).1 2 (by decide) (by decide)
      (fun k h1 h2 => by
        have e : k = 1 := by omega
        subst e
        decide)
      (by decide),
    (sync_handshake silent countingRnd openedLink rfl).2
      (fun k h1 h2 => by
        interval_cases k <;> decide)⟩

/-- C6 (drain before send), evaluated at a concrete state: the device delivers two lines in
one burst, `Read` returns the first and the second stays in the buffer of `reader`;
`Send`, with the device silent, leaves that buffer as it is, and the `Read` after it
returns the second line, which the device delivered before the message was written. -/
theorem send_keeps_buffered_line :
    Read burstLink = Outcome.ok (str "OK", false, ⟨[], str "ERROR stale\n", []⟩)
      ∧ Send silent ⟨[], str "ERROR stale\n", []⟩ (str ":status::")
        = Outcome.ok ⟨[], str "ERROR stale\n", [str ":status::"]⟩
      ∧ Read ⟨[], str "ERROR stale\n", [str ":status::"]⟩
        = Outcome.ok (str "ERROR stale", false, ⟨[], [], [str ":status::"]⟩) := by
  decide

/-- What the next `Read` returns: the first line of what is buffered and pending. -/
theorem Read_first_line (l : Link) :
    ∃ x err l1, Read l = Outcome.ok (x, err, l1)
      ∧ (readLines (l.rbuf ++ l.port)).head? = some x := by
  by_cases h : LF ∈ l.rbuf ++ l.port
  · obtain ⟨pre, post, hs, hp⟩ := exists_first_LF _ h
    obtain ⟨l1, h1, _, _⟩ := Read_line hs hp
    refine ⟨_, _, l1, h1, ?_⟩
    rw [hs]
    simpa [readLines] using congrArg List.head? (linesFrom_line pre post hp [])
  · refine ⟨_, _, _, Read_timeout h, ?_⟩
    simpa [readLines] using congrArg List.head? (linesFrom_rest _ h [])

/-- What `Drain` and `Send` do to the link: `Drain` makes reads that yield bytes, all the
pending ones together, then one read that yields none, and stops, with nothing pending on
the port and the buffer of `reader` untouched; after `Send` the port holds only what the
device sent in answer to the message, the buffer of `reader` still holds what it held
before, and the next `Read` returns the first line of the buffered bytes followed by that
answer. -/
theorem send_drains_port_only (dev : Device) (l : Link) (msg : List Byte) :
    (∃ counts, Drain l = Outcome.ok (counts ++ [0], { l with port := [] })
        ∧ (∀ n ∈ counts, 0 < n) ∧ counts.sum = l.port.length)
      ∧ Send dev l msg = Outcome.ok
          { port := dev (l.sent ++ [msg]), rbuf := l.rbuf, sent := l.sent ++ [msg] }
      ∧ (∃ x err l2,
          Read { port := dev (l.sent ++ [msg]), rbuf := l.rbuf, sent := l.sent ++ [msg] }
            = Outcome.ok (x, err, l2)
          ∧ (readLines (l.rbuf ++ dev (l.sent ++ [msg]))).head? = some x) :=
  ⟨Drain_eq l, Send_eq dev l msg,
    Read_first_line { port := dev (l.sent ++ [msg]), rbuf := l.rbuf, sent := l.sent ++ [msg] }⟩

/-- C9 (stale acknowledgments): a line that ends in the acknowledgment of the nonce `m`,
whatever precedes it, fails the test `strings.HasSuffix(x, "PINGACK:"+str+":")` of the
attempt that sent a different nonce `n`. -/
theorem stale_ack_rejected (n m : Nat) (hnm : n ≠ m) (before : List Byte) :
    HasSuffix (before ++ ackSuffix m) (ackSuffix n) = false := by
  cases hx : HasSuffix (before ++ ackSuffix m) (ackSuffix n) with
  | false => rfl
  | true =>
    exfalso
    have hs : ackSuffix n <:+ before ++ ackSuffix m := by
      simpa [HasSuffix] using hx
    exact hnm (Itoa_injective
      (ack_suffix_eq (Itoa n) (Itoa m) before (Itoa_no_colon n) (Itoa_no_colon m) hs))

/-- C9 at concrete nonces: the acknowledgment of 17 after some noise is not accepted by
the attempt that sent 7. -/
theorem stale_ack_rejected_witness :
    (7 : Nat) ≠ 17 ∧ HasSuffix (str "noise " ++ ackSuffix 17) (ackSuffix 7) = false :=
  ⟨by decide, stale_ack_rejected 7 17 (by decide) (str "noise ")⟩

/-! ## The claims about the web handlers -/

/-- `http_once` returns and writes exactly its request to the device. -/
theorem http_once_sent (dev : Device) (w : Response) (l : Link) (request : List Byte) :
    ∃ res w1 l1, http_once dev w l request = Outcome.ok (res, w1, l1)
      ∧ l1.sent = l.sent ++ [request] := by
  obtain ⟨x, err, l1, h1, h2⟩ := Read_ok
    { port := dev (l.sent ++ [request]), rbuf := l.rbuf, sent := l.sent ++ [request] }
  refine ⟨x, w ++ [x ++ str "<br>"], l1, ?_, h2⟩
  simp [http_once, SendRead, Send_eq, h1]

set_option maxRecDepth 100000 in
theorem mem_pswdstring (c : Byte) : c ∈ pswdstring ↔ isAlnum c := by
  revert c
  decide

theorem validPsw_iff (s : List Byte) :
    validPsw s = true ↔ s ≠ [] ∧ ∀ c ∈ s, c ∈ pswdstring := by
  induction s with
  | nil => simp [validPsw]
  | cons c rest ih =>
    cases rest with
    | nil => simp [validPsw]
    | cons d rest =>
      simp only [validPsw, Bool.and_eq_true, decide_eq_true_eq] at ih ⊢
      rw [ih]
      simp

theorem check_psw_iff (w : Response) (s : List Byte) :
    (check_psw w s).1 = true ↔ s ≠ [] ∧ ∀ c ∈ s, isAlnum c := by
  have hv := validPsw_iff s
  simp only [mem_pswdstring] at hv
  unfold check_psw
  by_cases h0 : s = []
  · simp [h0]
  · rw [if_neg h0]
    cases hb : validPsw s with
    | true =>
      simp only [Bool.not_true, Bool.false_eq_true, if_false, true_iff]
      exact hv.mp hb
    | false =>
      simp only [Bool.not_false, if_true, Bool.false_eq_true, false_iff]
      intro hc
      rw [hv.mpr hc] at hb
      cases hb

/-- C7 (password-image extraction): for an upload that `parse_jpeg` decodes into `r`,
whatever the command verb: when the comment of `r` does not start with `LOCKPSW:`,
`http_unlock_file` reports "This is not a valid password image" and leaves the link
untouched; when the comment is `LOCKPSW:` followed by `psw` and `check_psw` accepts `psw`,
the one message written to the device is `":" + cmd + ":" + psw + ":"`; and when
`check_psw` rejects `psw`, the link is untouched. -/
theorem unlock_file_extracts_password (dev : Device) (spare : List Byte) (w : Response)
    (l : Link) (cmd buf : List Byte) (r : JPEG) (h : parse_jpeg buf spare = Outcome.ok r) :
    (HasPrefix r.comment (str "LOCKPSW:") = false →
        http_unlock_file dev spare w l cmd (some buf)
          = Outcome.ok (w ++ [str "This is not a valid password image"], l))
      ∧ (∀ psw, r.comment = str "LOCKPSW:" ++ psw → (check_psw w psw).1 = true →
        ∃ w1 l1, http_unlock_file dev spare w l cmd (some buf) = Outcome.ok (w1, l1)
          ∧ l1.sent = l.sent ++ [str ":" ++ cmd ++ str ":" ++ psw ++ str ":"])
      ∧ (∀ psw, r.comment = str "LOCKPSW:" ++ psw → (check_psw w psw).1 = false →
        ∃ w1, http_unlock_file dev spare w l cmd (some buf) = Outcome.ok (w1, l)) := by
  have hpre : ∀ psw, HasPrefix (str "LOCKPSW:" ++ psw) (str "LOCKPSW:") = true := by
    intro psw
    simp [HasPrefix]
  have hdrop : ∀ psw, (str "LOCKPSW:" ++ psw).drop 8 = psw := by
    intro psw
    exact List.drop_left' (by decide)
  refine ⟨?_, ?_, ?_⟩
  · intro hno
    simp [http_unlock_file, h, hno]
  · intro psw hc hok
    obtain ⟨res, w1, l1, k1, k2⟩ := http_once_sent dev (check_psw w psw).2 l
      (str ":" ++ cmd ++ str ":" ++ psw ++ str ":")
    refine ⟨w1, l1, ?_, k2⟩
    simp only [http_unlock_file, h, hc, hpre, hdrop, if_true, hok, k1, Outcome.ok_bind,
      Outcome.pure_eq]
  · intro psw hc hno
    refine ⟨(check_psw w psw).2, ?_⟩
    simp only [http_unlock_file, h, hc, hpre, hdrop, if_true, hno, Bool.false_eq_true,
      if_false, Outcome.pure_eq]

/-- C7 at a concrete input: the image written for the password `abc`, uploaded for the
verb `unlock`, makes the handler write `:unlock:abc:`. -/
theorem unlock_file_extracts_password_witness :
    parse_jpeg passwordImage [] = Outcome.ok { JPEG.zero with comment := str "LOCKPSW:abc" }
      ∧ ∃ w1 l1, http_unlock_file silent [] [] openedLink (str "unlock") (some passwordImage)
            = Outcome.ok (w1, l1)
          ∧ l1.sent = openedLink.sent ++ [str ":" ++ str "unlock" ++ str ":" ++ str "abc" ++ str ":"] :=
  ⟨by decide,
    (unlock_file_extracts_password silent [] [] openedLink (str "unlock") passwordImage
      { JPEG.zero with comment := str "LOCKPSW:abc" } (by decide)).2.1 (str "abc") (by decide)
      (by decide)⟩

/-- C8 (password validation): `check_psw` accepts exactly the non-empty strings of ASCII
letters and digits; it accepts "Ab12xy" and rejects "", "has space" and "semi:colon"; and
`http_unlock` writes its one command to the device when `check_psw` accepts the password
and leaves the link untouched when it does not. -/
theorem check_psw_accepts_alnum :
    (∀ (w : Response) (s : List Byte),
        (check_psw w s).1 = true ↔ s ≠ [] ∧ ∀ c ∈ s, isAlnum c)
      ∧ (check_psw [] (str "Ab12xy")).1 = true
      ∧ (check_psw [] (str "")).1 = false
      ∧ (check_psw [] (str "has space")).1 = false
      ∧ (check_psw [] (str "semi:colon")).1 = false
      ∧ (∀ (dev : Device) (w : Response) (l : Link) (cmd psw : List Byte),
          (check_psw w psw).1 = true →
          ∃ w1 l1, http_unlock dev w l cmd psw = Outcome.ok (w1, l1)
            ∧ l1.sent = l.sent ++ [str ":" ++ cmd ++ str ":" ++ psw ++ str ":"])
      ∧ (∀ (dev : Device) (w : Response) (l : Link) (cmd psw : List Byte),
          (check_psw w psw).1 = false →
          ∃ w1, http_unlock dev w l cmd psw = Outcome.ok (w1, l)) := by
  refine ⟨check_psw_iff, by decide, by decide, by decide, by decide, ?_, ?_⟩
  · intro dev w l cmd psw hok
    obtain ⟨res, w1, l1, k1, k2⟩ := http_once_sent dev (check_psw w psw).2 l
      (str ":" ++ cmd ++ str ":" ++ psw ++ str ":")
    refine ⟨w1, l1, ?_, k2⟩
    simp only [http_unlock, hok, if_true, k1, Outcome.ok_bind, Outcome.pure_eq]
  · intro dev w l cmd psw hno
    refine ⟨(check_psw w psw).2, ?_⟩
    simp only [http_unlock, hno, Bool.false_eq_true, if_false, Outcome.pure_eq]

end Safe
